import Mathlib

/-!
Shallow embedding of the I2CMiniPrefs on-device key-value store
(src/src/I2CMiniPrefs.h, class I2CMiniPrefs).

The device is a byte-addressable memory, modelled as a total function from
addresses to byte values; every write masks its argument with mod 256, which
is the semantics of storing into a byte.  Header structs are embedded with
their logical (packed) byte image as described by the specification, section 3:
the global header occupies 7 bytes, a block header 4 bytes and an entry header
7 bytes, and every CRC-8 covers exactly the fields preceding the checksum.
Addresses are plain naturals; the source uses 16-bit device addresses, so the
embedding is faithful for geometries that fit the 16-bit address space, which
the theorems' hypotheses (and all concrete configurations used below) enforce.
The in-memory object state (_isInitialized, geometry, _totalBlocks,
_activeBlockIndex) is the `Prefs` structure, threaded explicitly.
-/

/-- A byte-addressable device: address to stored byte. -/
abbrev Dev := Nat → Nat

/-- Write one byte (`_i2c_write_byte`): stores `v mod 256` at address `a`. -/
def wr1 (d : Dev) (a v : Nat) : Dev := fun x => if x = a then v % 256 else d x

/-- Write a byte sequence starting at `a` (`_i2c_write_bytes`). -/
def wrBytes (d : Dev) (a : Nat) : List Nat → Dev
  | [] => d
  | b :: bs => wrBytes (wr1 d a b) (a + 1) bs

/-- Read one byte. -/
def rd1 (d : Dev) (a : Nat) : Nat := d a % 256

/-- Read a little-endian 16-bit field (two bytes). -/
def rd16 (d : Dev) (a : Nat) : Nat := rd1 d a + 256 * rd1 d (a + 1)

/-- Read `n` bytes starting at `a` (`_i2c_read_bytes`). -/
def rdBytes (d : Dev) (a n : Nat) : List Nat :=
  (List.range n).map (fun i => rd1 d (a + i))

/-- One shift step of the CRC-8 inner loop: polynomial 0x07. -/
def crc8Round (c : Nat) : Nat :=
  if 128 ≤ c then ((c * 2) % 256) ^^^ 7 else (c * 2) % 256

/-- Iterate the CRC-8 round. -/
def crc8Rounds : Nat → Nat → Nat
  | 0, c => c
  | n + 1, c => crc8Rounds n (crc8Round c)

/-- Absorb one input byte into the CRC-8 state (`_calculateCrc8` body). -/
def crc8Byte (c b : Nat) : Nat := crc8Rounds 8 (c ^^^ b % 256)

/-- CRC-8 with polynomial 0x07 and initial value 0x00 (`_calculateCrc8`). -/
def crc8 (bs : List Nat) : Nat := bs.foldl crc8Byte 0

/-- A C `char` read from a byte: signed on the target platform. -/
def signedChar (b : Nat) : Int :=
  if b % 256 < 128 then (b % 256 : Int) else (b % 256 : Int) - 256

/-- One step of the DJB2 hash on a 16-bit accumulator (`_hashKey` loop body). -/
def hashStep (h b : Nat) : Nat := (((h : Int) * 33 + signedChar b) % 65536).toNat

/-- 16-bit DJB2 hash of a key, given as its list of bytes (`_hashKey`). -/
def hashKey (key : List Nat) : Nat := key.foldl hashStep 5381

/-- sizeof(GlobalHeader), packed layout. -/
def GLOBAL_HEADER_SIZE : Nat := 7
/-- sizeof(BlockHeader), packed layout. -/
def BLOCK_HEADER_SIZE : Nat := 4
/-- sizeof(EntryHeader), packed layout. -/
def ENTRY_HEADER_SIZE : Nat := 7

/-- Block status: empty and available. -/
def BLOCK_STATUS_EMPTY : Nat := 0
/-- Block status: currently active write block. -/
def BLOCK_STATUS_ACTIVE : Nat := 1
/-- Block status: contains valid data. -/
def BLOCK_STATUS_VALID : Nat := 2

/-- In-memory state of an I2CMiniPrefs instance (configuration + runtime). -/
structure Prefs where
  isInitialized : Bool
  blockSizeBytes : Nat
  maxKeyLength : Nat
  maxValueLength : Nat
  totalMemoryBytes : Nat
  totalBlocks : Nat
  activeBlockIndex : Nat
deriving DecidableEq

/-- `_getBlockAddress`: base address of block `i`. -/
def getBlockAddress (p : Prefs) (i : Nat) : Nat :=
  GLOBAL_HEADER_SIZE + i * p.blockSizeBytes

/-- Decoded BlockHeader fields (checksum is recomputed on read/write). -/
structure BlockHdr where
  status : Nat
  currentOffset : Nat
deriving DecidableEq

/-- `_readBlockHeader`: `none` models a CRC failure (return false). -/
def readBlockHeader (d : Dev) (p : Prefs) (i : Nat) : Option BlockHdr :=
  let a := getBlockAddress p i
  let st := rd1 d a
  let off := rd16 d (a + 1)
  let ck := rd1 d (a + 3)
  if crc8 [st, off % 256, off / 256] = ck then some ⟨st, off⟩ else none

/-- `_writeBlockHeader`: serialize with a fresh CRC over status and offset. -/
def writeBlockHeader (d : Dev) (p : Prefs) (i : Nat) (h : BlockHdr) : Dev :=
  wrBytes d (getBlockAddress p i)
    [h.status, h.currentOffset % 256, h.currentOffset / 256 % 256,
     crc8 [h.status % 256, h.currentOffset % 256, h.currentOffset / 256 % 256]]

/-- Decoded GlobalHeader fields. -/
structure GlobalHdr where
  magic : Nat
  version : Nat
  totalBlocks : Nat
  activeBlockIndex : Nat
deriving DecidableEq

/-- `_readGlobalHeader`: magic is 0xA5 = 165, version 1, CRC over the
preceding fields. -/
def readGlobalHeader (d : Dev) : Option GlobalHdr :=
  let m := rd1 d 0
  let v := rd1 d 1
  let tb := rd16 d 2
  let ab := rd16 d 4
  let ck := rd1 d 6
  if m = 165 ∧ v = 1 ∧
      crc8 [m, v, tb % 256, tb / 256, ab % 256, ab / 256] = ck then
    some ⟨m, v, tb, ab⟩
  else none

/-- `_writeGlobalHeader`. -/
def writeGlobalHeader (d : Dev) (h : GlobalHdr) : Dev :=
  wrBytes d 0
    [h.magic, h.version, h.totalBlocks % 256, h.totalBlocks / 256 % 256,
     h.activeBlockIndex % 256, h.activeBlockIndex / 256 % 256,
     crc8 [h.magic % 256, h.version % 256, h.totalBlocks % 256,
           h.totalBlocks / 256 % 256, h.activeBlockIndex % 256,
           h.activeBlockIndex / 256 % 256]]

/-- Decoded EntryHeader fields. -/
structure EntryHdr where
  status : Nat
  dataType : Nat
  keyHash : Nat
  keyLength : Nat
  valueLength : Nat
deriving DecidableEq

/-- Read an EntryHeader at absolute address `a`. -/
def readEntryHeader (d : Dev) (a : Nat) : EntryHdr :=
  ⟨rd1 d a, rd1 d (a + 1), rd16 d (a + 2), rd1 d (a + 4), rd16 d (a + 5)⟩

/-- Byte image of an EntryHeader, as written by `_writeEntry`. -/
def entryHeaderBytes (e : EntryHdr) : List Nat :=
  [e.status, e.dataType, e.keyHash % 256, e.keyHash / 256 % 256,
   e.keyLength, e.valueLength % 256, e.valueLength / 256 % 256]

/-- Total record size of an entry: header + key + value.  The source computes
this into a uint16; the reduction is immaterial within the bounds all
theorems work under, and keeping the plain sum makes the walk terminate the
way the device loop of the source does for well-formed entries. -/
def entrySize (e : EntryHdr) : Nat :=
  ENTRY_HEADER_SIZE + e.keyLength + e.valueLength

/-- `uint8_t keyLen = strlen(key)`: key byte length reduced to a byte. -/
def keyLen8 (key : List Nat) : Nat := key.length % 256

/-- The first `keyLen8` stored bytes of the key, reduced to bytes; the image
against which the on-device key bytes are compared. -/
def keyImage (key : List Nat) : List Nat :=
  (key.map (fun b => b % 256)).take (keyLen8 key)

/-- The entry-walk of `_findEntry` inside one block, with an explicit
iteration bound: every step advances the walker by at least one byte, so
`off - cur` steps always suffice and the bound is never hit before the loop
condition `cur < off` fails. -/
def scanFromF (d : Dev) (key : List Nat) (bs off : Nat) : Nat → Nat → Option Nat
  | 0, _ => none
  | fuel + 1, cur =>
    if cur < off then
      let e := readEntryHeader d (bs + cur)
      if e.status = 0 then scanFromF d key bs off fuel (cur + entrySize e)
      else if e.keyHash = hashKey key ∧ e.keyLength = keyLen8 key ∧
          rdBytes d (bs + cur + ENTRY_HEADER_SIZE) (keyLen8 key) = keyImage key then
        some (bs + cur)
      else scanFromF d key bs off fuel (cur + entrySize e)
    else none

/-- The entry-walk of `_findEntry` inside one block, returning the entry
header address of the first live entry whose hash, key length and key bytes
match (`strcmp` agrees with bytewise comparison for NUL-free keys). -/
def scanFrom (d : Dev) (key : List Nat) (bs off cur : Nat) : Option Nat :=
  scanFromF d key bs off (off - cur) cur

/-- The block loop of `_findEntry`, over a list of block indices. -/
def findInBlocks (d : Dev) (p : Prefs) (key : List Nat) : List Nat → Option Nat
  | [] => none
  | i :: rest =>
    match readBlockHeader d p i with
    | none => findInBlocks d p key rest
    | some h =>
      if h.status = BLOCK_STATUS_ACTIVE ∨ h.status = BLOCK_STATUS_VALID then
        match scanFrom d key (getBlockAddress p i) h.currentOffset BLOCK_HEADER_SIZE with
        | some a => some a
        | none => findInBlocks d p key rest
      else findInBlocks d p key rest

/-- `_findEntry`: address of the entry header for `key`, or `none` (the source
returns 0, an address no entry can have).  The source's out-parameters are the
fields of `readEntryHeader` at the returned address, read again where used. -/
def findEntry (d : Dev) (p : Prefs) (key : List Nat) : Option Nat :=
  if p.isInitialized then findInBlocks d p key (List.range p.totalBlocks)
  else none

/-- `_markEntryAsDeleted`: single-byte tombstone of a live entry. -/
def markEntryAsDeleted (d : Dev) (a : Nat) : Bool × Dev :=
  if a = 0 then (false, d)
  else if rd1 d a ≠ 1 then (false, d)
  else (true, wr1 d a 0)

/-- Block scan of `_runGarbageCollection`: first block whose header is
unreadable or whose status is EMPTY. -/
def findFirstEmpty (d : Dev) (p : Prefs) : List Nat → Option Nat
  | [] => none
  | i :: rest =>
    match readBlockHeader d p i with
    | none => some i
    | some h =>
      if h.status = BLOCK_STATUS_EMPTY then some i
      else findFirstEmpty d p rest

/-- The inner copy loop of `_runGarbageCollection` over one source block:
walks entries from `cur` to `srcOff`, copying live in-bounds entries to the
target block at the write cursor; returns `false` (with the device as
mutated so far) when a record would not fit the target block. -/
def gcCopyEntriesF (p : Prefs) (newAddr srcAddr srcOff : Nat) :
    Nat → Dev → Nat → Nat → Bool × Dev × Nat
  | 0, d, cursor, _ => (true, d, cursor)
  | fuel + 1, d, cursor, cur =>
    if cur < srcOff then
      let e := readEntryHeader d (srcAddr + cur)
      let sz := entrySize e
      if e.status = 1 ∧ e.keyLength ≤ p.maxKeyLength ∧ e.valueLength ≤ p.maxValueLength then
        if p.blockSizeBytes < cursor + sz then (false, d, cursor)
        else
          gcCopyEntriesF p newAddr srcAddr srcOff fuel
            (wrBytes d (newAddr + cursor) (rdBytes d (srcAddr + cur) sz))
            (cursor + sz) (cur + sz)
      else gcCopyEntriesF p newAddr srcAddr srcOff fuel d cursor (cur + sz)
    else (true, d, cursor)

/-- Entry point of the inner copy loop; as for the scan walk, `srcOff - cur`
iterations always suffice. -/
def gcCopyEntries (d : Dev) (p : Prefs) (newAddr srcAddr srcOff cursor cur : Nat) :
    Bool × Dev × Nat :=
  gcCopyEntriesF p newAddr srcAddr srcOff (srcOff - cur) d cursor cur

/-- The outer copy loop of `_runGarbageCollection`: every source block other
than the target with a readable ACTIVE or VALID header is walked and then
erased (header rewritten EMPTY with offset `sizeof(BlockHeader)`); a fit
failure aborts immediately without erasing the failing block. -/
def gcCopyBlocks (d : Dev) (p : Prefs) (t newAddr cursor : Nat) :
    List Nat → Bool × Dev × Nat
  | [] => (true, d, cursor)
  | j :: rest =>
    if j = t then gcCopyBlocks d p t newAddr cursor rest
    else
      match readBlockHeader d p j with
      | none => gcCopyBlocks d p t newAddr cursor rest
      | some h =>
        if h.status = BLOCK_STATUS_ACTIVE ∨ h.status = BLOCK_STATUS_VALID then
          match gcCopyEntries d p newAddr (getBlockAddress p j) h.currentOffset
              cursor BLOCK_HEADER_SIZE with
          | (false, d1, c1) => (false, d1, c1)
          | (true, d1, c1) =>
            gcCopyBlocks (writeBlockHeader d1 p j ⟨BLOCK_STATUS_EMPTY, BLOCK_HEADER_SIZE⟩)
              p t newAddr c1 rest
        else gcCopyBlocks d p t newAddr cursor rest

/-- The commit tail of `_runGarbageCollection` after the copy loop: a failed
copy keeps the device as mutated so far and the instance state unchanged; on
success the target's header is finalized with the final cursor, the active
index updated, and a fresh global header committed. -/
def gcFinish (p : Prefs) (t : Nat) : Bool × Dev × Nat → Bool × Dev × Prefs
  | (false, d3, _) => (false, d3, p)
  | (true, d3, c) =>
    let d4 := writeBlockHeader d3 p t ⟨BLOCK_STATUS_ACTIVE, c⟩
    let p2 := { p with activeBlockIndex := t }
    (true, writeGlobalHeader d4 ⟨165, 1, p.totalBlocks, t⟩, p2)

/-- `_runGarbageCollection`: select the first empty block, demote the current
active block (when initialized), promote the target, compact live entries into
it, finalize its header and commit a fresh global header. -/
def runGarbageCollection (d : Dev) (p : Prefs) : Bool × Dev × Prefs :=
  match findFirstEmpty d p (List.range p.totalBlocks) with
  | none => (false, d, p)
  | some t =>
    let d1 :=
      if p.isInitialized then
        match readBlockHeader d p p.activeBlockIndex with
        | some h =>
          writeBlockHeader d p p.activeBlockIndex ⟨BLOCK_STATUS_VALID, h.currentOffset⟩
        | none => d
      else d
    let d2 := writeBlockHeader d1 p t ⟨BLOCK_STATUS_ACTIVE, BLOCK_HEADER_SIZE⟩
    gcFinish p t (gcCopyBlocks d2 p t (getBlockAddress p t) BLOCK_HEADER_SIZE
      (List.range p.totalBlocks))

/-- The append tail of `_writeEntry`: write the new entry header, the key
bytes and the value bytes at the active block's current offset. -/
def appendEntry (d : Dev) (p : Prefs) (off : Nat) (key : List Nat) (ty : Nat)
    (val : List Nat) : Dev :=
  let a := getBlockAddress p p.activeBlockIndex + off
  let e : EntryHdr := ⟨1, ty, hashKey key, keyLen8 key, val.length⟩
  let d1 := wrBytes d a (entryHeaderBytes e)
  let d2 := wrBytes d1 (a + ENTRY_HEADER_SIZE) (key.take (keyLen8 key))
  wrBytes d2 (a + ENTRY_HEADER_SIZE + keyLen8 key) val

/-- The commit tail of `_writeEntry`: append the entry, bump the block
header's offset by the record size (a uint16 increment) and rewrite it. -/
def appendAndCommit (d : Dev) (p : Prefs) (bh : BlockHdr) (key : List Nat)
    (ty : Nat) (val : List Nat) : Bool × Dev × Prefs :=
  let sz := (ENTRY_HEADER_SIZE + keyLen8 key + val.length) % 65536
  let d3 := appendEntry d p bh.currentOffset key ty val
  (true,
   writeBlockHeader d3 p p.activeBlockIndex ⟨bh.status, (bh.currentOffset + sz) % 65536⟩,
   p)

/-- `_writeEntry`: guard on initialization and length caps, tombstone any
existing entry for the key, then append into the active block; when the
record does not fit, run garbage collection, re-read the active header,
check only its status, and append (the source performs no second fit
check). -/
def writeEntry (d : Dev) (p : Prefs) (key : List Nat) (ty : Nat)
    (val : List Nat) : Bool × Dev × Prefs :=
  if p.isInitialized = false then (false, d, p)
  else if p.maxKeyLength < keyLen8 key ∨ p.maxValueLength < val.length then
    (false, d, p)
  else
    let d1 :=
      match findEntry d p key with
      | some a => (markEntryAsDeleted d a).2
      | none => d
    match readBlockHeader d1 p p.activeBlockIndex with
    | none => (false, d1, p)
    | some bh =>
      if bh.status ≠ BLOCK_STATUS_ACTIVE then (false, d1, p)
      else
        let sz := (ENTRY_HEADER_SIZE + keyLen8 key + val.length) % 65536
        if p.blockSizeBytes < bh.currentOffset + sz then
          match runGarbageCollection d1 p with
          | (false, d2, p2) => (false, d2, p2)
          | (true, d2, p2) =>
            match readBlockHeader d2 p2 p2.activeBlockIndex with
            | none => (false, d2, p2)
            | some bh2 =>
              if bh2.status ≠ BLOCK_STATUS_ACTIVE then (false, d2, p2)
              else appendAndCommit d2 p2 bh2 key ty val
        else appendAndCommit d1 p bh key ty val

/-- `begin`: compute the block count, then format (global header invalid),
recover, or repair; transport initialization and device probing are out of
scope and modelled as succeeding. -/
def pbegin (d : Dev) (p : Prefs) : Bool × Dev × Prefs :=
  let n := (p.totalMemoryBytes - GLOBAL_HEADER_SIZE) / p.blockSizeBytes % 65536
  if n = 0 then (false, d, p)
  else
    let p1 := { p with totalBlocks := n }
    match readGlobalHeader d with
    | none =>
      match runGarbageCollection d p1 with
      | (false, d1, p2) => (false, d1, p2)
      | (true, d1, p2) => (true, d1, { p2 with isInitialized := true })
    | some gh =>
      let p2 := { p1 with activeBlockIndex := gh.activeBlockIndex }
      match readBlockHeader d p2 p2.activeBlockIndex with
      | some h =>
        if h.status = BLOCK_STATUS_ACTIVE then (true, d, { p2 with isInitialized := true })
        else
          match runGarbageCollection d p2 with
          | (false, d1, p3) => (false, d1, p3)
          | (true, d1, p3) => (true, d1, { p3 with isInitialized := true })
      | none =>
        match runGarbageCollection d p2 with
        | (false, d1, p3) => (false, d1, p3)
        | (true, d1, p3) => (true, d1, { p3 with isInitialized := true })

/-- `remove`: find the entry and tombstone it; false when absent. -/
def removeKey (d : Dev) (p : Prefs) (key : List Nat) : Bool × Dev :=
  match findEntry d p key with
  | some a => markEntryAsDeleted d a
  | none => (false, d)

/-- `isKey`. -/
def isKey (d : Dev) (p : Prefs) (key : List Nat) : Bool :=
  (findEntry d p key).isSome

/-- `clear`: reset the in-memory state (initialized flag cleared, active
index 0) and run garbage collection. -/
def clear (d : Dev) (p : Prefs) : Bool × Dev × Prefs :=
  runGarbageCollection d { p with isInitialized := false, activeBlockIndex := 0 }

/-- `_getValue<T>` at byte level: the typed getters deserialize `sizeof T`
bytes; the stored type tag must equal the requested one and the stored value
length must equal `n = sizeof T`, else the caller's default is returned. -/
def getValueBytes (d : Dev) (p : Prefs) (key : List Nat) (n ty : Nat)
    (dflt : List Nat) : List Nat :=
  match findEntry d p key with
  | some a =>
    let e := readEntryHeader d a
    if e.dataType = ty ∧ e.valueLength = n then
      rdBytes d (a + ENTRY_HEADER_SIZE + e.keyLength) n
    else dflt
  | none => dflt

/-- `_getComplexValue` at byte level: returns the read bytes (the source
returns their count and fills the caller's buffer); empty on type-tag
mismatch or absent key. -/
def getComplexValue (d : Dev) (p : Prefs) (key : List Nat) (maxLen ty : Nat) :
    List Nat :=
  match findEntry d p key with
  | some a =>
    let e := readEntryHeader d a
    if e.dataType = ty then rdBytes d (a + ENTRY_HEADER_SIZE + e.keyLength)
      (min e.valueLength maxLen)
    else []
  | none => []

/-- PrefDataType tag for TYPE_INT. -/
def TYPE_INT : Nat := 6
/-- PrefDataType tag for TYPE_STRING. -/
def TYPE_STRING : Nat := 14
/-- PrefDataType tag for TYPE_BYTES. -/
def TYPE_BYTES : Nat := 15

/-! ### Observation functions

These are not part of the source; they express the walk of `_findEntry`
as a list of matching entry addresses, so that invariants such as "at most
one live entry per key" can be stated and computed. -/

/-- All entry addresses in one block's walk whose status is nonzero and whose
hash, key length and key bytes match `key` (the match criterion of
`_findEntry`), in walk order. -/
def matchesInF (d : Dev) (key : List Nat) (bs off : Nat) : Nat → Nat → List Nat
  | 0, _ => []
  | fuel + 1, cur =>
    if cur < off then
      let e := readEntryHeader d (bs + cur)
      if e.status = 0 then matchesInF d key bs off fuel (cur + entrySize e)
      else if e.keyHash = hashKey key ∧ e.keyLength = keyLen8 key ∧
          rdBytes d (bs + cur + ENTRY_HEADER_SIZE) (keyLen8 key) = keyImage key then
        (bs + cur) :: matchesInF d key bs off fuel (cur + entrySize e)
      else matchesInF d key bs off fuel (cur + entrySize e)
    else []

/-- Entry point for the match walk (`off - cur` iterations suffice). -/
def matchesIn (d : Dev) (key : List Nat) (bs off cur : Nat) : List Nat :=
  matchesInF d key bs off (off - cur) cur

/-- The matches of `key` contributed by block `i`, in the order `_findEntry`
would visit them. -/
def blockMatches (d : Dev) (p : Prefs) (key : List Nat) (i : Nat) : List Nat :=
  match readBlockHeader d p i with
  | some h =>
    if h.status = BLOCK_STATUS_ACTIVE ∨ h.status = BLOCK_STATUS_VALID then
      matchesIn d key (getBlockAddress p i) h.currentOffset BLOCK_HEADER_SIZE
    else []
  | none => []

/-- All matches of `key` across all blocks, in `_findEntry` scan order. -/
def storeMatches (d : Dev) (p : Prefs) (key : List Nat) : List Nat :=
  (List.range p.totalBlocks).flatMap (blockMatches d p key)

/-- Number of live entries (entry status 0x01) for `key` across all blocks
readable by the scan. -/
def liveKeyCount (d : Dev) (p : Prefs) (key : List Nat) : Nat :=
  ((storeMatches d p key).filter (fun a => rd1 d a = 1)).length

/-- The walk of a block parses cleanly: starting from `cur`, each entry lies
entirely below `off` and the walk lands exactly on `off`. -/
def chainBoundedF (d : Dev) (bs off : Nat) : Nat → Nat → Bool
  | 0, cur => decide (cur = off)
  | fuel + 1, cur =>
    if cur < off then
      let e := readEntryHeader d (bs + cur)
      decide (cur + entrySize e ≤ off) && chainBoundedF d bs off fuel (cur + entrySize e)
    else decide (cur = off)

/-- Entry point for the walk-parses-cleanly check (`off - cur` iterations
suffice). -/
def chainBounded (d : Dev) (bs off cur : Nat) : Bool :=
  chainBoundedF d bs off (off - cur) cur

/-- Per-block sanity used as a hypothesis by the positive theorems: any block
the scan would walk (readable header, status ACTIVE or VALID) has a cleanly
parsing walk and an offset within the block size. -/
def blockOK (d : Dev) (p : Prefs) (i : Nat) : Bool :=
  match readBlockHeader d p i with
  | some h =>
    if h.status = BLOCK_STATUS_ACTIVE ∨ h.status = BLOCK_STATUS_VALID then
      chainBounded d (getBlockAddress p i) h.currentOffset BLOCK_HEADER_SIZE &&
        decide (h.currentOffset ≤ p.blockSizeBytes)
    else true
  | none => true

/-- All-blocks sanity. -/
def BlocksOK (d : Dev) (p : Prefs) : Prop :=
  ∀ i < p.totalBlocks, blockOK d p i = true

instance (d : Dev) (p : Prefs) : Decidable (BlocksOK d p) := by
  unfold BlocksOK; infer_instance

/-- Geometry sanity used as a hypothesis by the positive theorems: block
headers fit blocks, the active index is in range, the key cap is a byte and
the whole layout fits the 16-bit address space of the transport. -/
def GeomOK (p : Prefs) : Prop :=
  4 ≤ p.blockSizeBytes ∧ p.blockSizeBytes < 65536 ∧ p.maxKeyLength < 256 ∧
    p.activeBlockIndex < p.totalBlocks ∧
    GLOBAL_HEADER_SIZE + p.totalBlocks * p.blockSizeBytes ≤ 65536

instance (p : Prefs) : Decidable (GeomOK p) := by
  unfold GeomOK; infer_instance

/-! ### Concrete configurations and traces

Small concrete geometries used to evaluate the operations: a 103-byte device
(global header + three 32-byte blocks), key cap 2, value cap 16.  These
exercise the code exactly as the public API does, starting from a blank
(all-0xFF) device. -/

/-- A blank device: every byte reads 0xFF. -/
def blankDev : Dev := fun _ => 255

/-- Constructor state for a 3-block geometry (blockSize 32, maxKey 2,
maxValue 16, 103 memory bytes); not yet initialized. -/
def cfgA : Prefs := ⟨false, 32, 2, 16, 103, 0, 0⟩

/-- `begin` on the blank device: formats block 0 as the active block. -/
def stA1 : Bool × Dev × Prefs := pbegin blankDev cfgA

/-- A 16-byte value. -/
def vK : List Nat := (List.range 16).map (fun i => 100 + i)

/-- First put: key byte 107, a 16-byte TYPE_BYTES value (record size 24). -/
def stA2 : Bool × Dev × Prefs := writeEntry stA1.2.1 stA1.2.2 [107] TYPE_BYTES vK

/-- Second put's value: 16 bytes crafted so that, when the record overflows
the active block (the source performs no fit re-check after garbage
collection), the bytes spilling over the block boundary form a valid block
header for the next block followed by a live entry for key 107. -/
def vForged : List Nat := [1, 15, 16, 182, 1, 4, 0, 107, 9, 9, 9, 9, 0, 0, 0, 0]

/-- Second put: key byte 60 (chosen so the spilled checksum byte validates),
triggering garbage collection and then an overflowing append. -/
def stA3 : Bool × Dev × Prefs := writeEntry stA2.2.1 stA2.2.2 [60] TYPE_BYTES vForged

/-- Instance state for a crafted mid-operation device: 3 blocks, block 1
active. -/
def cfgB : Prefs := ⟨true, 32, 2, 16, 103, 3, 1⟩

/-- A device holding: a VALID block 0 with one live entry for key 120
(value [7,7,7,7]), an ACTIVE block 1 with one live 24-byte entry for key 121,
and an EMPTY block 2.  All headers carry valid CRCs. -/
def devB : Dev :=
  writeBlockHeader
    (wrBytes
      (writeBlockHeader
        (wrBytes
          (writeBlockHeader (writeGlobalHeader blankDev ⟨165, 1, 3, 1⟩) cfgB 0 ⟨2, 16⟩)
          11 (entryHeaderBytes ⟨1, 15, hashKey [120], 1, 4⟩ ++ [120] ++ [7, 7, 7, 7]))
        cfgB 1 ⟨1, 28⟩)
      43 (entryHeaderBytes ⟨1, 15, hashKey [121], 1, 16⟩ ++ [121] ++
        (List.range 16).map (fun i => 30 + i)))
    cfgB 2 ⟨0, 4⟩

/-- Garbage collection run on `devB`: block 0's entry fits the target but
block 1's does not, so the run fails after erasing block 0. -/
def gcB : Bool × Dev × Prefs := runGarbageCollection devB cfgB

/-- Instance state for the failing-put scenario: 3 blocks, block 1 active. -/
def cfgC : Prefs := ⟨true, 32, 2, 16, 103, 3, 1⟩

/-- A device where the live set no longer fits one block once a new record is
added: block 0 VALID with a live entry for key 120 and a live 16-byte entry
for key 119, block 1 ACTIVE and full (off 32) with live entries for keys 121
and 122, block 2 EMPTY. -/
def devC : Dev :=
  writeBlockHeader
    (wrBytes
      (wrBytes
        (writeBlockHeader
          (wrBytes
            (wrBytes
              (writeBlockHeader (writeGlobalHeader blankDev ⟨165, 1, 3, 1⟩) cfgC 0 ⟨2, 32⟩)
              11 (entryHeaderBytes ⟨1, 15, hashKey [120], 1, 4⟩ ++ [120] ++ [7, 7, 7, 7]))
            23 (entryHeaderBytes ⟨1, 15, hashKey [119], 1, 8⟩ ++ [119] ++
              [1, 1, 1, 1, 1, 1, 1, 1]))
          cfgC 1 ⟨1, 32⟩)
        43 (entryHeaderBytes ⟨1, 15, hashKey [121], 1, 5⟩ ++ [121] ++ [2, 2, 2, 2, 2]))
      56 (entryHeaderBytes ⟨1, 15, hashKey [122], 1, 7⟩ ++ [122] ++ [3, 3, 3, 3, 3, 3, 3]))
    cfgC 2 ⟨0, 4⟩

/-- A put of key 120 on `devC`: it tombstones the existing entry, then the
garbage collection it triggers fails (the live set does not fit), so the put
returns false. -/
def stC : Bool × Dev × Prefs := writeEntry devC cfgC [120] TYPE_BYTES [1, 2, 3, 4]

/-! ### Theorems -/

set_option maxRecDepth 100000

/-- C1: the claim states that on an initialized store, after any finite
sequence of put and remove operations, at most one live entry per key exists
across all blocks.  This theorem evaluates the code on a concrete reachable
trace that refutes it: begin on a blank device, one in-bounds put of key 107,
then one put of key 60 whose record overflows the active block; because
`_writeEntry` performs no fit re-check after garbage collection, the record's
tail bytes overwrite the following block's header with a forged valid image,
after which TWO live entries for key 107 are visible at once. -/
theorem c1_two_live_entries :
    stA1.1 = true ∧ stA1.2.2.isInitialized = true ∧
    stA2.1 = true ∧ stA3.1 = true ∧
    liveKeyCount stA3.2.1 stA3.2.2 [107] = 2 := by decide

/-- C2 counterexample: after `begin` on a blank device the claim asserts the
inactive blocks carry status EMPTY under a valid CRC-backed header; in fact
the garbage collector skips blocks whose headers fail CRC without writing
them, so blocks 1 and 2 still hold their blank 0xFF bytes and their headers
do not validate at all. -/
theorem c2_counterexample :
    stA1.1 = true ∧ stA1.2.2.totalBlocks = 3 ∧
    readBlockHeader stA1.2.1 stA1.2.2 1 = none ∧
    readBlockHeader stA1.2.1 stA1.2.2 2 = none := by decide

/-- C3: the claim states that when the record does not fit the active block,
garbage collection runs, the fit condition is re-checked, and on failure no
entry bytes are written beyond the block capacity B.  This theorem evaluates
the code at a state where, after a successful garbage collection, the record
still does not fit: the put nevertheless returns true, the active block's
recorded offset 52 exceeds B = 32, and a byte one block-size past the active
block's base (the next block's header area, previously 255) has been
overwritten. -/
theorem c3_overflow_write :
    stA3.1 = true ∧
    readBlockHeader stA3.2.1 stA3.2.2 1 = some ⟨1, 52⟩ ∧
    stA3.2.2.blockSizeBytes = 32 ∧
    stA3.2.1 (getBlockAddress stA3.2.2 1 + 32) = 1 ∧
    stA2.2.1 (getBlockAddress stA3.2.2 1 + 32) = 255 := by decide

/-- C4: the claim states that when garbage collection fails for lack of
space, every live entry that existed before the run is still readable
afterwards.  This theorem evaluates the code at a concrete device where the
live set does not fit one block: the run fails, and the live entry for key
120 (readable before, at address 11) is no longer findable afterwards — its
source block was erased before the failure, and its copy in the target block
lies beyond the target's recorded offset. -/
theorem c4_gc_failure_loses_entry :
    findEntry devB cfgB [120] = some 11 ∧ rd1 devB 11 = 1 ∧
    getValueBytes devB cfgB [120] 4 TYPE_BYTES [99] = [7, 7, 7, 7] ∧
    gcB.1 = false ∧
    findEntry gcB.2.1 gcB.2.2 [120] = none ∧
    getValueBytes gcB.2.1 gcB.2.2 [120] 4 TYPE_BYTES [99] = [99] := by decide

/-! ### Basic device lemmas -/

theorem wr1_ne {d : Dev} {a v x : Nat} (h : x ≠ a) : wr1 d a v x = d x := by
  simp [wr1, h]

theorem wr1_self (d : Dev) (a v : Nat) : wr1 d a v a = v % 256 := by
  simp [wr1]

theorem wrBytes_outside {bs : List Nat} {d : Dev} {a x : Nat}
    (h : x < a ∨ a + bs.length ≤ x) : wrBytes d a bs x = d x := by
  induction bs generalizing d a with
  | nil => rfl
  | cons b t ih =>
    simp only [wrBytes]
    rw [ih (by simp only [List.length_cons] at h; omega)]
    exact wr1_ne (by simp only [List.length_cons] at h; omega)

theorem wrBytes_get {bs : List Nat} {d : Dev} {a : Nat} :
    ∀ i < bs.length, wrBytes d a bs (a + i) = bs.getD i 0 % 256 := by
  induction bs generalizing d a with
  | nil => intro i hi; simp at hi
  | cons b t ih =>
    intro i hi
    cases i with
    | zero =>
      simp only [wrBytes, Nat.add_zero, List.getD]
      rw [wrBytes_outside (Or.inl (Nat.lt_succ_self a))]
      simp [wr1]
    | succ j =>
      simp only [wrBytes, List.getD_cons_succ]
      have : a + (j + 1) = (a + 1) + j := by omega
      rw [this]
      exact ih j (by simpa using hi)

theorem rdBytes_succ (d : Dev) (a n : Nat) :
    rdBytes d a (n + 1) = rd1 d a :: rdBytes d (a + 1) n := by
  simp only [rdBytes, List.range_succ_eq_map, List.map_cons, List.map_map, Nat.add_zero]
  congr 1
  apply List.map_congr_left
  intro i _
  simp only [Function.comp]
  congr 1
  omega

theorem rdBytes_congr {d1 d2 : Dev} {a n : Nat}
    (h : ∀ i < n, d2 (a + i) = d1 (a + i)) : rdBytes d2 a n = rdBytes d1 a n := by
  simp only [rdBytes]
  apply List.map_congr_left
  intro i hi
  simp only [rd1]
  rw [h i (List.mem_range.mp hi)]

theorem rdBytes_wrBytes (d : Dev) (a : Nat) (bs : List Nat) :
    rdBytes (wrBytes d a bs) a bs.length = bs.map (fun b => b % 256) := by
  induction bs generalizing d a with
  | nil => rfl
  | cons b t ih =>
    rw [List.length_cons, rdBytes_succ, List.map_cons]
    congr 1
    · simp only [wrBytes, rd1]
      rw [wrBytes_outside (Or.inl (Nat.lt_succ_self a))]
      simp [wr1]
    · simpa only [wrBytes] using ih (wr1 d a b) (a + 1)

theorem crc8Round_lt (c : Nat) : crc8Round c < 256 := by
  have hm : c * 2 % 256 < 256 := Nat.mod_lt _ (by norm_num)
  unfold crc8Round
  split
  · have h1 : c * 2 % 256 < 2 ^ 8 := by simpa using hm
    have h2 : (7 : Nat) < 2 ^ 8 := by norm_num
    have h3 := Nat.xor_lt_two_pow h1 h2
    simpa using h3
  · exact hm

theorem crc8Rounds_lt (n c : Nat) : crc8Rounds (n + 1) c < 256 := by
  induction n generalizing c with
  | zero => exact crc8Round_lt c
  | succ m ih => exact ih (crc8Round c)

theorem crc8Byte_lt (c b : Nat) : crc8Byte c b < 256 := crc8Rounds_lt 7 _

theorem crc8_foldl_lt (bs : List Nat) :
    ∀ acc, acc < 256 → bs.foldl crc8Byte acc < 256 := by
  induction bs with
  | nil => intro acc hacc; simpa using hacc
  | cons b t ih =>
    intro acc _
    rw [List.foldl_cons]
    exact ih _ (crc8Byte_lt acc b)

theorem crc8_lt (bs : List Nat) : crc8 bs < 256 := crc8_foldl_lt bs 0 (by norm_num)

/-! ### Header codec lemmas -/

theorem readBlockHeader_congr {d1 d2 : Dev} {p : Prefs} {i : Nat}
    (h : ∀ k < 4, d2 (getBlockAddress p i + k) = d1 (getBlockAddress p i + k)) :
    readBlockHeader d2 p i = readBlockHeader d1 p i := by
  have h0 : d2 (getBlockAddress p i) = d1 (getBlockAddress p i) := by
    simpa using h 0 (by norm_num)
  have h1 := h 1 (by norm_num)
  have h2 := h 2 (by norm_num)
  have h3 := h 3 (by norm_num)
  simp only [readBlockHeader, rd1, rd16]
  rw [show getBlockAddress p i + 1 + 1 = getBlockAddress p i + 2 from by omega,
    h0, h1, h2, h3]

theorem readEntryHeader_congr {d1 d2 : Dev} {a : Nat}
    (h : ∀ k < 7, d2 (a + k) = d1 (a + k)) :
    readEntryHeader d2 a = readEntryHeader d1 a := by
  have h0 : d2 a = d1 a := by simpa using h 0 (by norm_num)
  have h1 := h 1 (by norm_num)
  have h2 := h 2 (by norm_num)
  have h3 := h 3 (by norm_num)
  have h4 := h 4 (by norm_num)
  have h5 := h 5 (by norm_num)
  have h6 := h 6 (by norm_num)
  simp only [readEntryHeader, rd1, rd16]
  rw [show a + 2 + 1 = a + 3 from by omega, show a + 5 + 1 = a + 6 from by omega,
    h0, h1, h2, h3, h4, h5, h6]

theorem mod256_mod256 (n : Nat) : n % 256 % 256 = n % 256 := by omega

theorem readBlockHeader_write (d : Dev) (p : Prefs) (i : Nat) (st off : Nat)
    (hst : st < 256) (hoff : off < 65536) :
    readBlockHeader (writeBlockHeader d p i ⟨st, off⟩) p i = some ⟨st, off⟩ := by
  simp only [writeBlockHeader]
  have g0 := @wrBytes_get
    [st, off % 256, off / 256 % 256, crc8 [st % 256, off % 256, off / 256 % 256]]
    d (getBlockAddress p i) 0 (by norm_num)
  have g1 := @wrBytes_get
    [st, off % 256, off / 256 % 256, crc8 [st % 256, off % 256, off / 256 % 256]]
    d (getBlockAddress p i) 1 (by norm_num)
  have g2 := @wrBytes_get
    [st, off % 256, off / 256 % 256, crc8 [st % 256, off % 256, off / 256 % 256]]
    d (getBlockAddress p i) 2 (by norm_num)
  have g3 := @wrBytes_get
    [st, off % 256, off / 256 % 256, crc8 [st % 256, off % 256, off / 256 % 256]]
    d (getBlockAddress p i) 3 (by norm_num)
  simp only [List.getD_cons_zero, List.getD_cons_succ, Nat.add_zero] at g0 g1 g2 g3
  simp only [readBlockHeader, rd1, rd16,
    show getBlockAddress p i + 1 + 1 = getBlockAddress p i + 2 from by omega]
  rw [g0, g1, g2, g3]
  simp only [mod256_mod256]
  rw [Nat.mod_eq_of_lt hst, show off / 256 % 256 = off / 256 from by omega,
    Nat.mod_add_div]
  rw [Nat.mod_eq_of_lt (crc8_lt [st, off % 256, off / 256])]
  simp

theorem writeBlockHeader_outside {d : Dev} {p : Prefs} {i : Nat} {b : BlockHdr} {x : Nat}
    (h : x < getBlockAddress p i ∨ getBlockAddress p i + 4 ≤ x) :
    writeBlockHeader d p i b x = d x := by
  simp only [writeBlockHeader]
  exact wrBytes_outside (by simpa using h)

theorem writeGlobalHeader_outside {d : Dev} {h : GlobalHdr} {x : Nat}
    (hx : 7 ≤ x) : writeGlobalHeader d h x = d x := by
  simp only [writeGlobalHeader]
  exact wrBytes_outside (by simp; omega)

theorem readBlockHeader_blank {d : Dev} {p : Prefs} {i : Nat}
    (h : ∀ k < 4, d (getBlockAddress p i + k) = 255) :
    readBlockHeader d p i = none := by
  have h0 : d (getBlockAddress p i) = 255 := by simpa using h 0 (by norm_num)
  have h1 := h 1 (by norm_num)
  have h2 := h 2 (by norm_num)
  have h3 := h 3 (by norm_num)
  simp only [readBlockHeader, rd1, rd16,
    show getBlockAddress p i + 1 + 1 = getBlockAddress p i + 2 from by omega]
  rw [h0, h1, h2, h3]
  norm_num
  decide

theorem readGlobalHeader_blank {d : Dev} (h : d 0 = 255) :
    readGlobalHeader d = none := by
  simp only [readGlobalHeader, rd1, rd16, h]
  norm_num

theorem readGlobalHeader_write (d : Dev) (tb ab : Nat)
    (htb : tb < 65536) (hab : ab < 65536) :
    readGlobalHeader (writeGlobalHeader d ⟨165, 1, tb, ab⟩) = some ⟨165, 1, tb, ab⟩ := by
  simp only [writeGlobalHeader]
  have g0 := @wrBytes_get
    [165, 1, tb % 256, tb / 256 % 256, ab % 256, ab / 256 % 256,
     crc8 [165 % 256, 1 % 256, tb % 256, tb / 256 % 256, ab % 256, ab / 256 % 256]]
    d 0 0 (by norm_num)
  have g1 := @wrBytes_get
    [165, 1, tb % 256, tb / 256 % 256, ab % 256, ab / 256 % 256,
     crc8 [165 % 256, 1 % 256, tb % 256, tb / 256 % 256, ab % 256, ab / 256 % 256]]
    d 0 1 (by norm_num)
  have g2 := @wrBytes_get
    [165, 1, tb % 256, tb / 256 % 256, ab % 256, ab / 256 % 256,
     crc8 [165 % 256, 1 % 256, tb % 256, tb / 256 % 256, ab % 256, ab / 256 % 256]]
    d 0 2 (by norm_num)
  have g3 := @wrBytes_get
    [165, 1, tb % 256, tb / 256 % 256, ab % 256, ab / 256 % 256,
     crc8 [165 % 256, 1 % 256, tb % 256, tb / 256 % 256, ab % 256, ab / 256 % 256]]
    d 0 3 (by norm_num)
  have g4 := @wrBytes_get
    [165, 1, tb % 256, tb / 256 % 256, ab % 256, ab / 256 % 256,
     crc8 [165 % 256, 1 % 256, tb % 256, tb / 256 % 256, ab % 256, ab / 256 % 256]]
    d 0 4 (by norm_num)
  have g5 := @wrBytes_get
    [165, 1, tb % 256, tb / 256 % 256, ab % 256, ab / 256 % 256,
     crc8 [165 % 256, 1 % 256, tb % 256, tb / 256 % 256, ab % 256, ab / 256 % 256]]
    d 0 5 (by norm_num)
  have g6 := @wrBytes_get
    [165, 1, tb % 256, tb / 256 % 256, ab % 256, ab / 256 % 256,
     crc8 [165 % 256, 1 % 256, tb % 256, tb / 256 % 256, ab % 256, ab / 256 % 256]]
    d 0 6 (by norm_num)
  simp only [List.getD_cons_zero, List.getD_cons_succ, Nat.add_zero] at g0 g1 g2 g3 g4 g5 g6
  simp only [readGlobalHeader, rd1, rd16]
  norm_num at g0 g1 g2 g3 g4 g5 g6 ⊢
  rw [g0, g1, g2, g3, g4, g5, g6]
  simp only [mod256_mod256]
  rw [show tb / 256 % 256 = tb / 256 from by omega,
    show ab / 256 % 256 = ab / 256 from by omega,
    Nat.mod_add_div, Nat.mod_add_div]
  rw [Nat.mod_eq_of_lt (crc8_lt [165, 1, tb % 256, tb / 256, ab % 256, ab / 256])]
  simp


/-! ### Symbolic walk lemmas

Inside this section `crc8` is treated as opaque: its value is irrelevant to
these lemmas, and keeping it unevaluated keeps elaboration cheap. -/

section SymbolicLemmas

attribute [local irreducible] crc8

theorem scanFromF_some_ge {d : Dev} {key : List Nat} {bs off : Nat} :
    ∀ fuel cur a, scanFromF d key bs off fuel cur = some a → bs + cur ≤ a := by
  intro fuel
  induction fuel with
  | zero => intro cur a h; simp [scanFromF] at h
  | succ m ih =>
    intro cur a h
    simp only [scanFromF] at h
    split at h
    · split at h
      · have := ih _ _ h; omega
      · split at h
        · simp at h; omega
        · have := ih _ _ h; omega
    · simp at h

theorem scanFrom_some_ge {d : Dev} {key : List Nat} {bs off cur a : Nat}
    (h : scanFrom d key bs off cur = some a) : bs + cur ≤ a :=
  scanFromF_some_ge _ _ _ h

theorem findInBlocks_pos {d : Dev} {p : Prefs} {key : List Nat} {l : List Nat} {a : Nat}
    (h : findInBlocks d p key l = some a) : 0 < a := by
  induction l with
  | nil => simp [findInBlocks] at h
  | cons i rest ih =>
    simp only [findInBlocks] at h
    split at h
    · exact ih h
    · split at h
      · split at h
        · rename_i hscan
          simp only [Option.some.injEq] at h
          subst h
          have hge := scanFrom_some_ge hscan
          simp only [getBlockAddress, GLOBAL_HEADER_SIZE] at hge ⊢
          omega
        · exact ih h
      · exact ih h

theorem findEntry_pos {d : Dev} {p : Prefs} {key : List Nat} {a : Nat}
    (h : findEntry d p key = some a) : 0 < a := by
  unfold findEntry at h
  split at h
  · exact findInBlocks_pos h
  · simp at h

theorem gcFinish_isInitialized (p : Prefs) (t : Nat) (r : Bool × Dev × Nat) :
    (gcFinish p t r).2.2.isInitialized = p.isInitialized := by
  obtain ⟨b, d3, c⟩ := r
  cases b <;> rfl

theorem gc_isInitialized (d : Dev) (p : Prefs) :
    (runGarbageCollection d p).2.2.isInitialized = p.isInitialized := by
  unfold runGarbageCollection
  split
  · rfl
  · exact gcFinish_isInitialized _ _ _

/-- C10: the claim states that tombstoning a live entry writes exactly one
byte, the entry's status byte set to 0x00, and that every other device byte
is unchanged by `remove` on an existing key.  Confirmed: when `_findEntry`
returns an entry whose status byte is 0x01, `remove` rewrites exactly that
byte to 0 and returns true; all other addresses read back unchanged. -/
theorem c10_tombstone_single_byte (d : Dev) (p : Prefs) (key : List Nat) (a : Nat)
    (hfind : findEntry d p key = some a) (hlive : rd1 d a = 1) :
    removeKey d p key = (true, wr1 d a 0) ∧
    wr1 d a 0 a = 0 ∧ (∀ x, x ≠ a → wr1 d a 0 x = d x) := by
  have hpos := findEntry_pos hfind
  refine ⟨?_, by simp [wr1], fun x hx => wr1_ne hx⟩
  simp [removeKey, hfind, markEntryAsDeleted, Nat.pos_iff_ne_zero.mp hpos, hlive]

/-- C6: the claim states that when the stored entry's data_type tag differs
from the requested type, or its value_length differs from sizeof(T), every
typed get returns the caller's default.  Confirmed for the scalar getters
(`_getValue`); the complex getter (`_getComplexValue`) checks only the tag,
and a mismatched tag yields an empty read, hence the caller's default. -/
theorem c6_type_mismatch_default (d : Dev) (p : Prefs) (key : List Nat)
    (a n ty maxLen : Nat) (dflt : List Nat)
    (hfind : findEntry d p key = some a)
    (hmis : (readEntryHeader d a).dataType ≠ ty ∨ (readEntryHeader d a).valueLength ≠ n) :
    getValueBytes d p key n ty dflt = dflt ∧
    ((readEntryHeader d a).dataType ≠ ty → getComplexValue d p key maxLen ty = []) := by
  constructor
  · simp only [getValueBytes, hfind]
    rcases hmis with h | h <;> simp [h]
  · intro h
    simp [getComplexValue, hfind, h]

/-- C7: the claim states that after `clear` the store is unmarked as
initialized and stays so until the next `begin`: every subsequent put fails
(leaving device and state unchanged, so the condition persists), every get
returns the caller's default, and `isKey` is false.  Confirmed: `clear`
resets the flag and `_runGarbageCollection` never sets it. -/
theorem c7_clear_uninitializes (d d0 : Dev) (p p0 : Prefs) (key : List Nat)
    (ty n : Nat) (val dflt : List Nat) :
    (clear d p).2.2.isInitialized = false ∧
    (p0.isInitialized = false →
      writeEntry d0 p0 key ty val = (false, d0, p0) ∧
      findEntry d0 p0 key = none ∧
      getValueBytes d0 p0 key n ty dflt = dflt ∧
      isKey d0 p0 key = false ∧
      removeKey d0 p0 key = (false, d0)) := by
  constructor
  · unfold clear
    rw [gc_isInitialized]
  · intro h
    have hfind : findEntry d0 p0 key = none := by
      unfold findEntry
      rw [h]
      simp
    refine ⟨?_, hfind, ?_, ?_, ?_⟩
    · unfold writeEntry
      rw [h]
      simp
    · simp [getValueBytes, hfind]
    · simp [isKey, hfind]
    · simp [removeKey, hfind]

end SymbolicLemmas

/-- C10 witness: removing key 107 from the one-entry store of the concrete
trace rewrites exactly the status byte at address 11. -/
theorem c10_witness :
    removeKey stA2.2.1 stA2.2.2 [107] = (true, wr1 stA2.2.1 11 0) ∧
    wr1 stA2.2.1 11 0 11 = 0 ∧ wr1 stA2.2.1 11 0 12 = stA2.2.1 12 := by
  have h := c10_tombstone_single_byte stA2.2.1 stA2.2.2 [107] 11 (by decide) (by decide)
  exact ⟨h.1, h.2.1, h.2.2 12 (by decide)⟩

/-- C6 witness: key 107 holds a 16-byte TYPE_BYTES value; requesting it as
TYPE_INT yields the caller's default, and the complex getter returns
nothing. -/
theorem c6_witness :
    getValueBytes stA2.2.1 stA2.2.2 [107] 16 TYPE_INT [42] = [42] ∧
    getComplexValue stA2.2.1 stA2.2.2 [107] 16 TYPE_INT = [] := by
  have h := c6_type_mismatch_default stA2.2.1 stA2.2.2 [107] 11 16 TYPE_INT 16 [42]
    (by decide) (Or.inl (by decide))
  exact ⟨h.1, h.2 (by decide)⟩

/-- C7 witness: clearing the concrete one-entry store leaves it
uninitialized, after which a put fails with unchanged state, a get returns
the default, and `isKey` is false. -/
theorem c7_witness :
    (clear stA2.2.1 stA2.2.2).2.2.isInitialized = false ∧
    writeEntry (clear stA2.2.1 stA2.2.2).2.1 (clear stA2.2.1 stA2.2.2).2.2 [107] 15 [1] =
      (false, (clear stA2.2.1 stA2.2.2).2.1, (clear stA2.2.1 stA2.2.2).2.2) ∧
    getValueBytes (clear stA2.2.1 stA2.2.2).2.1 (clear stA2.2.1 stA2.2.2).2.2 [107]
      16 TYPE_BYTES [42] = [42] ∧
    isKey (clear stA2.2.1 stA2.2.2).2.1 (clear stA2.2.1 stA2.2.2).2.2 [107] = false := by
  have h := c7_clear_uninitializes stA2.2.1 (clear stA2.2.1 stA2.2.2).2.1
    stA2.2.2 (clear stA2.2.1 stA2.2.2).2.2 [107] 15 16 [1] [42]
  have h2 := h.2 h.1
  exact ⟨h.1, h2.1, h2.2.2.1, h2.2.2.2.1⟩

section BlankFormat

attribute [local irreducible] crc8

theorem gcCopyBlocks_skip {d : Dev} {p : Prefs} {t newAddr cursor : Nat} :
    ∀ l : List Nat, (∀ j ∈ l, j = t ∨ readBlockHeader d p j = none) →
    gcCopyBlocks d p t newAddr cursor l = (true, d, cursor) := by
  intro l
  induction l with
  | nil => intro _; rfl
  | cons j rest ih =>
    intro h
    have hrest : ∀ x ∈ rest, x = t ∨ readBlockHeader d p x = none :=
      fun x hx => h x (List.mem_cons_of_mem _ hx)
    rcases h j (List.mem_cons_self _ _) with hj | hj
    · subst hj
      simp only [gcCopyBlocks, if_pos rfl]
      exact ih hrest
    · simp only [gcCopyBlocks, hj]
      by_cases hjt : j = t
      · rw [if_pos hjt]
        exact ih hrest
      · rw [if_neg hjt]
        exact ih hrest

/-- C2 (amended): after `begin` on a blank device (all bytes 0xFF, instance
not yet initialized, workable geometry), exactly one block — index 0 — has
status ACTIVE with current_offset = sizeof(BlockHeader) under a valid
CRC-backed header, and a valid GlobalHeader is committed; the remaining
N - 1 blocks are left untouched (every byte still 0xFF), so their headers
fail CRC — they are merely treated as empty by the allocator, not rewritten
as EMPTY. -/
theorem c2_blank_begin_layout (d : Dev) (p : Prefs)
    (hblank : ∀ x, d x = 255) (hinit : p.isInitialized = false)
    (hB : 4 ≤ p.blockSizeBytes)
    (hn : 1 ≤ (p.totalMemoryBytes - GLOBAL_HEADER_SIZE) / p.blockSizeBytes % 65536) :
    (pbegin d p).1 = true ∧
    (pbegin d p).2.2.isInitialized = true ∧
    (pbegin d p).2.2.activeBlockIndex = 0 ∧
    (pbegin d p).2.2.totalBlocks =
      (p.totalMemoryBytes - GLOBAL_HEADER_SIZE) / p.blockSizeBytes % 65536 ∧
    readBlockHeader (pbegin d p).2.1 (pbegin d p).2.2 0 =
      some ⟨BLOCK_STATUS_ACTIVE, BLOCK_HEADER_SIZE⟩ ∧
    readGlobalHeader (pbegin d p).2.1 =
      some ⟨165, 1, (p.totalMemoryBytes - GLOBAL_HEADER_SIZE) / p.blockSizeBytes % 65536, 0⟩ ∧
    (∀ j, 1 ≤ j → j < (p.totalMemoryBytes - GLOBAL_HEADER_SIZE) / p.blockSizeBytes % 65536 →
      readBlockHeader (pbegin d p).2.1 (pbegin d p).2.2 j = none ∧
      ∀ x, getBlockAddress p j ≤ x → x < getBlockAddress p j + p.blockSizeBytes →
        (pbegin d p).2.1 x = 255) := by
  have hmod : (p.totalMemoryBytes - GLOBAL_HEADER_SIZE) / p.blockSizeBytes % 65536 < 65536 :=
    Nat.mod_lt _ (by norm_num)
  set n := (p.totalMemoryBytes - GLOBAL_HEADER_SIZE) / p.blockSizeBytes % 65536 with hn_def
  set p1 : Prefs := { p with totalBlocks := n } with hp1
  -- the blank global header does not validate, so begin formats via gc
  have e1 : readGlobalHeader d = none := readGlobalHeader_blank (hblank 0)
  have hb0 : readBlockHeader d p1 0 = none :=
    readBlockHeader_blank (fun k _ => hblank _)
  have hff : findFirstEmpty d p1 (List.range n) = some 0 := by
    obtain ⟨m, hm⟩ : ∃ m, n = m + 1 := ⟨n - 1, by omega⟩
    rw [hm, List.range_succ_eq_map]
    simp only [findFirstEmpty, hb0]
  set d2 : Dev := writeBlockHeader d p1 0 ⟨BLOCK_STATUS_ACTIVE, BLOCK_HEADER_SIZE⟩ with hd2
  -- every other block's header bytes are untouched by the promote write
  have hjbyte : ∀ j, 1 ≤ j → ∀ x, getBlockAddress p1 j ≤ x → d2 x = d x := by
    intro j hj x hx
    have hmul : p.blockSizeBytes ≤ j * p.blockSizeBytes :=
      Nat.le_mul_of_pos_left _ (by omega)
    have hout : x < getBlockAddress p1 0 ∨ getBlockAddress p1 0 + 4 ≤ x := by
      right
      simp only [getBlockAddress, GLOBAL_HEADER_SIZE] at hx ⊢
      omega
    exact writeBlockHeader_outside hout
  have hblocks : ∀ j ∈ List.range n, j = 0 ∨ readBlockHeader d2 p1 j = none := by
    intro j hj
    by_cases h0 : j = 0
    · exact Or.inl h0
    · refine Or.inr (readBlockHeader_blank ?_)
      intro k _
      rw [hjbyte j (by omega) _ (Nat.le_add_right _ _)]
      exact hblank _
  have hcopy := @gcCopyBlocks_skip d2 p1 0 (getBlockAddress p1 0) BLOCK_HEADER_SIZE
    (List.range n) hblocks
  -- the formatted device
  set d4 : Dev := writeBlockHeader d2 p1 0 ⟨BLOCK_STATUS_ACTIVE, BLOCK_HEADER_SIZE⟩ with hd4
  set dF : Dev := writeGlobalHeader d4 ⟨165, 1, n, 0⟩ with hdF
  have hgc : runGarbageCollection d p1 =
      (true, dF, { p1 with activeBlockIndex := 0 }) := by
    unfold runGarbageCollection
    have ht : List.range p1.totalBlocks = List.range n := rfl
    rw [ht, hff]
    show gcFinish p1 0 (gcCopyBlocks
      (writeBlockHeader
        (if p.isInitialized = true then
          match readBlockHeader d p1 p.activeBlockIndex with
          | some h => writeBlockHeader d p1 p.activeBlockIndex
              ⟨BLOCK_STATUS_VALID, h.currentOffset⟩
          | none => d
        else d)
        p1 0 ⟨BLOCK_STATUS_ACTIVE, BLOCK_HEADER_SIZE⟩)
      p1 0 (getBlockAddress p1 0) BLOCK_HEADER_SIZE (List.range n)) = _
    rw [if_neg (show ¬ p.isInitialized = true from by rw [hinit]; exact Bool.false_ne_true)]
    rw [← hd2, hcopy]
    rfl
  have hbegin : pbegin d p = (true, dF, { p1 with activeBlockIndex := 0, isInitialized := true }) := by
    unfold pbegin
    rw [if_neg (show ¬ ((p.totalMemoryBytes - GLOBAL_HEADER_SIZE) / p.blockSizeBytes % 65536 = 0) from by omega)]
    rw [e1]
    rw [show ({ p with totalBlocks := (p.totalMemoryBytes - GLOBAL_HEADER_SIZE) / p.blockSizeBytes % 65536 } : Prefs) = p1 from rfl]
    simp only [hgc]
  rw [hbegin]
  refine ⟨rfl, rfl, rfl, rfl, ?_, ?_, ?_⟩
  · -- block 0 reads back ACTIVE with offset sizeof(BlockHeader)
    have hw : readBlockHeader d4 p1 0 = some ⟨BLOCK_STATUS_ACTIVE, BLOCK_HEADER_SIZE⟩ :=
      readBlockHeader_write d2 p1 0 BLOCK_STATUS_ACTIVE BLOCK_HEADER_SIZE
        (by norm_num [BLOCK_STATUS_ACTIVE]) (by norm_num [BLOCK_HEADER_SIZE])
    have hcg : readBlockHeader dF p1 0 = readBlockHeader d4 p1 0 := by
      apply readBlockHeader_congr
      intro k _
      apply writeGlobalHeader_outside
      simp only [getBlockAddress, GLOBAL_HEADER_SIZE]
      omega
    exact hcg.trans hw
  · -- the global header reads back valid
    exact readGlobalHeader_write d4 n 0 hmod (by norm_num)
  · -- the other blocks are untouched and their headers fail CRC
    intro j hj1 hjn
    have hbytes : ∀ x, getBlockAddress p j ≤ x → x < getBlockAddress p j + p.blockSizeBytes →
        dF x = 255 := by
      intro x hx1 _
      have hmul : p.blockSizeBytes ≤ j * p.blockSizeBytes :=
        Nat.le_mul_of_pos_left _ (by omega)
      have hx7 : 7 ≤ x := by
        simp only [getBlockAddress, GLOBAL_HEADER_SIZE] at hx1
        omega
      rw [hdF, writeGlobalHeader_outside hx7]
      have hout : x < getBlockAddress p1 0 ∨ getBlockAddress p1 0 + 4 ≤ x := by
        right
        simp only [getBlockAddress, GLOBAL_HEADER_SIZE] at hx1 ⊢
        omega
      rw [hd4, writeBlockHeader_outside hout]
      rw [hjbyte j hj1 x hx1]
      exact hblank x
    refine ⟨?_, hbytes⟩
    apply readBlockHeader_blank
    intro k hk
    apply hbytes
    · exact Nat.le_add_right _ _
    · simp only [getBlockAddress]
      omega

end BlankFormat

/-- C2 witness: the concrete blank-device trace satisfies the amended
layout statement. -/
theorem c2_blank_begin_layout_witness :
    stA1.1 = true ∧ readBlockHeader stA1.2.1 stA1.2.2 0 = some ⟨1, 4⟩ ∧
    readGlobalHeader stA1.2.1 = some ⟨165, 1, 3, 0⟩ ∧
    readBlockHeader stA1.2.1 stA1.2.2 2 = none ∧ stA1.2.1 80 = 255 := by
  have h := c2_blank_begin_layout blankDev cfgA (fun x => rfl) rfl
    (by norm_num [cfgA]) (by norm_num [cfgA, GLOBAL_HEADER_SIZE])
  have h2 := h.2.2.2.2.2.2 2 (by norm_num) (by norm_num [cfgA, GLOBAL_HEADER_SIZE])
  exact ⟨h.1, h.2.2.2.2.1, h.2.2.2.2.2.1, h2.1,
    h2.2 80 (by norm_num [cfgA, getBlockAddress, GLOBAL_HEADER_SIZE])
      (by norm_num [cfgA, getBlockAddress, GLOBAL_HEADER_SIZE])⟩

section WalkLemmas

attribute [local irreducible] crc8

theorem entrySize_ge (e : EntryHdr) : 7 ≤ entrySize e := by
  simp only [entrySize, ENTRY_HEADER_SIZE]
  omega

theorem hashStep_lt (h b : Nat) : hashStep h b < 65536 := by
  unfold hashStep
  have h1 : ((h : Int) * 33 + signedChar b) % 65536 < 65536 :=
    Int.emod_lt_of_pos _ (by norm_num)
  omega

theorem hashKey_lt (key : List Nat) : hashKey key < 65536 := by
  unfold hashKey
  have h : ∀ acc, acc < 65536 → key.foldl hashStep acc < 65536 := by
    induction key with
    | nil => intro acc hacc; simpa using hacc
    | cons b t ih =>
      intro acc _
      rw [List.foldl_cons]
      exact ih _ (hashStep_lt acc b)
  exact h 5381 (by norm_num)

theorem matchesInF_stop {d : Dev} {key : List Nat} {bs off : Nat} (fuel cur : Nat)
    (h : ¬ cur < off) : matchesInF d key bs off fuel cur = [] := by
  cases fuel <;> simp [matchesInF, h]

theorem chainBoundedF_stop {d : Dev} {bs off : Nat} (fuel cur : Nat)
    (h : ¬ cur < off) : chainBoundedF d bs off fuel cur = decide (cur = off) := by
  cases fuel <;> simp [chainBoundedF, h]

theorem matchesInF_fuel {d : Dev} {key : List Nat} {bs off : Nat} :
    ∀ f1 f2 cur, off - cur ≤ f1 → off - cur ≤ f2 →
    matchesInF d key bs off f1 cur = matchesInF d key bs off f2 cur := by
  intro f1
  induction f1 with
  | zero =>
    intro f2 cur h1 _
    rw [matchesInF_stop 0 cur (by omega), matchesInF_stop f2 cur (by omega)]
  | succ m ih =>
    intro f2 cur h1 h2
    by_cases hc : cur < off
    · obtain ⟨g, hg⟩ : ∃ g, f2 = g + 1 := ⟨f2 - 1, by omega⟩
      subst hg
      simp only [matchesInF, if_pos hc]
      have hs := entrySize_ge (readEntryHeader d (bs + cur))
      have := ih g (cur + entrySize (readEntryHeader d (bs + cur))) (by omega) (by omega)
      rw [this]
    · rw [matchesInF_stop _ cur hc, matchesInF_stop f2 cur hc]

theorem chainBoundedF_fuel {d : Dev} {bs off : Nat} :
    ∀ f1 f2 cur, off - cur ≤ f1 → off - cur ≤ f2 →
    chainBoundedF d bs off f1 cur = chainBoundedF d bs off f2 cur := by
  intro f1
  induction f1 with
  | zero =>
    intro f2 cur h1 _
    rw [chainBoundedF_stop 0 cur (by omega), chainBoundedF_stop f2 cur (by omega)]
  | succ m ih =>
    intro f2 cur h1 h2
    by_cases hc : cur < off
    · obtain ⟨g, hg⟩ : ∃ g, f2 = g + 1 := ⟨f2 - 1, by omega⟩
      subst hg
      simp only [chainBoundedF, if_pos hc]
      have hs := entrySize_ge (readEntryHeader d (bs + cur))
      have := ih g (cur + entrySize (readEntryHeader d (bs + cur))) (by omega) (by omega)
      rw [this]
    · rw [chainBoundedF_stop _ cur hc, chainBoundedF_stop f2 cur hc]

/-- One-step unfolding of the match walk at its canonical fuel. -/
theorem matchesIn_unfold (d : Dev) (key : List Nat) (bs off cur : Nat) :
    matchesIn d key bs off cur =
      if cur < off then
        (if (readEntryHeader d (bs + cur)).status = 0 then
          matchesIn d key bs off (cur + entrySize (readEntryHeader d (bs + cur)))
        else if (readEntryHeader d (bs + cur)).keyHash = hashKey key ∧
            (readEntryHeader d (bs + cur)).keyLength = keyLen8 key ∧
            rdBytes d (bs + cur + ENTRY_HEADER_SIZE) (keyLen8 key) = keyImage key then
          (bs + cur) :: matchesIn d key bs off (cur + entrySize (readEntryHeader d (bs + cur)))
        else matchesIn d key bs off (cur + entrySize (readEntryHeader d (bs + cur)))) 
      else [] := by
  by_cases hc : cur < off
  · unfold matchesIn
    obtain ⟨m, hm⟩ : ∃ m, off - cur = m + 1 := ⟨off - cur - 1, by omega⟩
    rw [hm]
    simp only [matchesInF, if_pos hc]
    have hs := entrySize_ge (readEntryHeader d (bs + cur))
    have he := @matchesInF_fuel d key bs off m
      (off - (cur + entrySize (readEntryHeader d (bs + cur))))
      (cur + entrySize (readEntryHeader d (bs + cur))) (by omega) (by omega)
    rw [he]
  · unfold matchesIn
    rw [matchesInF_stop _ cur hc, if_neg hc]

/-- One-step unfolding of the chain check at its canonical fuel. -/
theorem chainBounded_unfold (d : Dev) (bs off cur : Nat) :
    chainBounded d bs off cur =
      if cur < off then
        (decide (cur + entrySize (readEntryHeader d (bs + cur)) ≤ off) &&
          chainBounded d bs off (cur + entrySize (readEntryHeader d (bs + cur))))
      else decide (cur = off) := by
  by_cases hc : cur < off
  · unfold chainBounded
    obtain ⟨m, hm⟩ : ∃ m, off - cur = m + 1 := ⟨off - cur - 1, by omega⟩
    rw [hm]
    simp only [chainBoundedF, if_pos hc]
    have hs := entrySize_ge (readEntryHeader d (bs + cur))
    have he := @chainBoundedF_fuel d bs off m
      (off - (cur + entrySize (readEntryHeader d (bs + cur))))
      (cur + entrySize (readEntryHeader d (bs + cur))) (by omega) (by omega)
    rw [he]
  · unfold chainBounded
    rw [chainBoundedF_stop _ cur hc, if_neg hc]

theorem scanFromF_eq_head {d : Dev} {key : List Nat} {bs off : Nat} :
    ∀ fuel cur, scanFromF d key bs off fuel cur =
      (matchesInF d key bs off fuel cur).head? := by
  intro fuel
  induction fuel with
  | zero => intro cur; rfl
  | succ m ih =>
    intro cur
    simp only [scanFromF, matchesInF]
    split
    · split
      · exact ih _
      · split
        · rfl
        · exact ih _
    · rfl

theorem scanFrom_eq_head (d : Dev) (key : List Nat) (bs off cur : Nat) :
    scanFrom d key bs off cur = (matchesIn d key bs off cur).head? :=
  scanFromF_eq_head _ _

theorem matchesIn_mem {d : Dev} {key : List Nat} {bs off : Nat} :
    ∀ cur a, a ∈ matchesIn d key bs off cur → bs + cur ≤ a ∧ a < bs + off := by
  have hF : ∀ fuel cur a, a ∈ matchesInF d key bs off fuel cur →
      bs + cur ≤ a ∧ a < bs + off := by
    intro fuel
    induction fuel with
    | zero => intro cur a h; simp [matchesInF] at h
    | succ m ih =>
      intro cur a h
      simp only [matchesInF] at h
      split at h
      · split at h
        · have := ih _ _ h
          omega
        · split at h
          · rcases List.mem_cons.mp h with h | h
            · subst h
              rename_i hc _ _
              omega
            · have := ih _ _ h
              omega
          · have := ih _ _ h
            omega
      · simp at h
  intro cur a h
  exact hF _ _ _ h

theorem entry_status_mk (dt kh kl vl : Nat) : (EntryHdr.mk 0 dt kh kl vl).status = 0 := rfl

theorem entry_size_mk (st dt kh kl vl : Nat) :
    entrySize (EntryHdr.mk st dt kh kl vl) = ENTRY_HEADER_SIZE + kl + vl := rfl

theorem readEntryHeader_wr1_status (d : Dev) (a : Nat) :
    readEntryHeader (wr1 d a 0) a =
      EntryHdr.mk 0 (readEntryHeader d a).dataType (readEntryHeader d a).keyHash
        (readEntryHeader d a).keyLength (readEntryHeader d a).valueLength := by
  simp only [readEntryHeader, rd1, rd16, wr1_self]
  rw [wr1_ne (show a + 1 ≠ a from by omega), wr1_ne (show a + 2 ≠ a from by omega),
    wr1_ne (show a + 2 + 1 ≠ a from by omega), wr1_ne (show a + 4 ≠ a from by omega),
    wr1_ne (show a + 5 ≠ a from by omega), wr1_ne (show a + 5 + 1 ≠ a from by omega)]

theorem matchesIn_congr {d1 d2 : Dev} {key : List Nat} {bs off : Nat} :
    ∀ cur, chainBounded d1 bs off cur = true →
    (∀ x, bs + cur ≤ x → x < bs + off → d2 x = d1 x) →
    matchesIn d2 key bs off cur = matchesIn d1 key bs off cur ∧
    chainBounded d2 bs off cur = true := by
  suffices h : ∀ n cur, off - cur ≤ n → chainBounded d1 bs off cur = true →
      (∀ x, bs + cur ≤ x → x < bs + off → d2 x = d1 x) →
      matchesIn d2 key bs off cur = matchesIn d1 key bs off cur ∧
      chainBounded d2 bs off cur = true by
    intro cur hcb hag
    exact h (off - cur) cur le_rfl hcb hag
  intro n
  induction n with
  | zero =>
    intro cur hn hcb hag
    have hc : ¬ cur < off := by omega
    rw [chainBounded_unfold, if_neg hc] at hcb ⊢
    rw [matchesIn_unfold, if_neg hc, matchesIn_unfold d1, if_neg hc]
    exact ⟨rfl, hcb⟩
  | succ m ih =>
    intro cur hn hcb hag
    by_cases hc : cur < off
    · rw [chainBounded_unfold, if_pos hc, Bool.and_eq_true] at hcb
      obtain ⟨hsz, hcb'⟩ := hcb
      have hsz' : cur + entrySize (readEntryHeader d1 (bs + cur)) ≤ off := of_decide_eq_true hsz
      have hge := entrySize_ge (readEntryHeader d1 (bs + cur))
      have hhd : readEntryHeader d2 (bs + cur) = readEntryHeader d1 (bs + cur) := by
        apply readEntryHeader_congr
        intro k hk
        exact hag _ (by omega) (by omega)
      have hagrec : ∀ x, bs + (cur + entrySize (readEntryHeader d1 (bs + cur))) ≤ x →
          x < bs + off → d2 x = d1 x := fun x hx1 hx2 => hag x (by omega) hx2
      obtain ⟨ihm, ihc⟩ := ih (cur + entrySize (readEntryHeader d1 (bs + cur)))
        (by omega) hcb' hagrec
      have hcnd : ((readEntryHeader d1 (bs + cur)).keyHash = hashKey key ∧
          (readEntryHeader d1 (bs + cur)).keyLength = keyLen8 key ∧
          rdBytes d2 (bs + cur + ENTRY_HEADER_SIZE) (keyLen8 key) = keyImage key) ↔
          ((readEntryHeader d1 (bs + cur)).keyHash = hashKey key ∧
          (readEntryHeader d1 (bs + cur)).keyLength = keyLen8 key ∧
          rdBytes d1 (bs + cur + ENTRY_HEADER_SIZE) (keyLen8 key) = keyImage key) := by
        by_cases hkl : (readEntryHeader d1 (bs + cur)).keyLength = keyLen8 key
        · have hrd : rdBytes d2 (bs + cur + ENTRY_HEADER_SIZE) (keyLen8 key) =
              rdBytes d1 (bs + cur + ENTRY_HEADER_SIZE) (keyLen8 key) := by
            apply rdBytes_congr
            intro i hi
            apply hag
            · simp only [ENTRY_HEADER_SIZE]; omega
            · simp only [ENTRY_HEADER_SIZE] at hi ⊢
              have : keyLen8 key = (readEntryHeader d1 (bs + cur)).keyLength := hkl.symm
              simp only [entrySize, ENTRY_HEADER_SIZE] at hsz'
              omega
          rw [hrd]
        · constructor <;> (rintro ⟨h1, h2, h3⟩; exact absurd h2 hkl)
      constructor
      · rw [matchesIn_unfold d2, if_pos hc, matchesIn_unfold d1, if_pos hc, hhd]
        by_cases hst : (readEntryHeader d1 (bs + cur)).status = 0
        · rw [if_pos hst, if_pos hst, ihm]
        · rw [if_neg hst, if_neg hst]
          by_cases hcd : (readEntryHeader d1 (bs + cur)).keyHash = hashKey key ∧
              (readEntryHeader d1 (bs + cur)).keyLength = keyLen8 key ∧
              rdBytes d1 (bs + cur + ENTRY_HEADER_SIZE) (keyLen8 key) = keyImage key
          · rw [if_pos hcd, if_pos (hcnd.mpr hcd), ihm]
          · rw [if_neg hcd, if_neg (fun h => hcd (hcnd.mp h)), ihm]
      · rw [chainBounded_unfold, if_pos hc, hhd, Bool.and_eq_true]
        exact ⟨hsz, ihc⟩
    · rw [chainBounded_unfold, if_neg hc] at hcb ⊢
      rw [matchesIn_unfold, if_neg hc, matchesIn_unfold d1, if_neg hc]
      exact ⟨rfl, hcb⟩

theorem matchesIn_tombstone {d : Dev} {key : List Nat} {bs off : Nat} :
    ∀ cur A rest, chainBounded d bs off cur = true →
    matchesIn d key bs off cur = A :: rest →
    matchesIn (wr1 d A 0) key bs off cur = rest ∧
    chainBounded (wr1 d A 0) bs off cur = true := by
  suffices h : ∀ n cur A rest, off - cur ≤ n → chainBounded d bs off cur = true →
      matchesIn d key bs off cur = A :: rest →
      matchesIn (wr1 d A 0) key bs off cur = rest ∧
      chainBounded (wr1 d A 0) bs off cur = true by
    intro cur A rest hcb hm
    exact h (off - cur) cur A rest le_rfl hcb hm
  intro n
  induction n with
  | zero =>
    intro cur A rest hn hcb hm
    have hc : ¬ cur < off := by omega
    rw [matchesIn_unfold, if_neg hc] at hm
    exact absurd hm (by simp)
  | succ m ih =>
    intro cur A rest hn hcb hm
    by_cases hc : cur < off
    · rw [chainBounded_unfold, if_pos hc, Bool.and_eq_true] at hcb
      obtain ⟨hszb, hcb'⟩ := hcb
      have hsz' : cur + entrySize (readEntryHeader d (bs + cur)) ≤ off := of_decide_eq_true hszb
      have hge := entrySize_ge (readEntryHeader d (bs + cur))
      rw [matchesIn_unfold, if_pos hc] at hm
      by_cases hst : (readEntryHeader d (bs + cur)).status = 0
      · -- dead entry: the tombstone target is further along
        rw [if_pos hst] at hm
        have hmemA : A ∈ matchesIn d key bs off
            (cur + entrySize (readEntryHeader d (bs + cur))) := by
          rw [hm]; exact List.mem_cons_self _ _
        have hAge := (matchesIn_mem _ _ hmemA).1
        have hhd : readEntryHeader (wr1 d A 0) (bs + cur) = readEntryHeader d (bs + cur) := by
          apply readEntryHeader_congr
          intro k hk
          exact wr1_ne (by omega)
        obtain ⟨ihm, ihc⟩ := ih _ A rest (by omega) hcb' hm
        constructor
        · rw [matchesIn_unfold, if_pos hc, hhd, if_pos hst, ihm]
        · rw [chainBounded_unfold, if_pos hc, hhd, Bool.and_eq_true]
          exact ⟨hszb, ihc⟩
      · rw [if_neg hst] at hm
        by_cases hcd : (readEntryHeader d (bs + cur)).keyHash = hashKey key ∧
            (readEntryHeader d (bs + cur)).keyLength = keyLen8 key ∧
            rdBytes d (bs + cur + ENTRY_HEADER_SIZE) (keyLen8 key) = keyImage key
        · -- the head match: this is the tombstoned entry
          rw [if_pos hcd, List.cons.injEq] at hm
          obtain ⟨hA, hrest⟩ := hm
          subst hA
          have hhd2 := readEntryHeader_wr1_status d (bs + cur)
          have hag2 : ∀ x, bs + (cur + entrySize (readEntryHeader d (bs + cur))) ≤ x →
              x < bs + off → wr1 d (bs + cur) 0 x = d x := by
            intro x hx1 _
            exact wr1_ne (by omega)
          obtain ⟨hcm, hcc⟩ := @matchesIn_congr d (wr1 d (bs + cur) 0) key bs off
            (cur + entrySize (readEntryHeader d (bs + cur))) hcb' hag2
          have hesz : entrySize (EntryHdr.mk 0 (readEntryHeader d (bs + cur)).dataType
              (readEntryHeader d (bs + cur)).keyHash (readEntryHeader d (bs + cur)).keyLength
              (readEntryHeader d (bs + cur)).valueLength) =
              entrySize (readEntryHeader d (bs + cur)) := rfl
          constructor
          · rw [matchesIn_unfold, if_pos hc, hhd2, entry_status_mk,
              if_pos (rfl : (0 : Nat) = 0), hesz, hcm, hrest]
          · rw [chainBounded_unfold, if_pos hc, hhd2, hesz, Bool.and_eq_true]
            exact ⟨hszb, hcc⟩
        · -- a non-matching live entry: the target is further along
          rw [if_neg hcd] at hm
          have hmemA : A ∈ matchesIn d key bs off
              (cur + entrySize (readEntryHeader d (bs + cur))) := by
            rw [hm]; exact List.mem_cons_self _ _
          have hAge := (matchesIn_mem _ _ hmemA).1
          have hhd : readEntryHeader (wr1 d A 0) (bs + cur) = readEntryHeader d (bs + cur) := by
            apply readEntryHeader_congr
            intro k hk
            exact wr1_ne (by omega)
          obtain ⟨ihm, ihc⟩ := ih _ A rest (by omega) hcb' hm
          have hcnd2 : (readEntryHeader d (bs + cur)).keyHash = hashKey key ∧
              (readEntryHeader d (bs + cur)).keyLength = keyLen8 key ∧
              rdBytes (wr1 d A 0) (bs + cur + ENTRY_HEADER_SIZE) (keyLen8 key) = keyImage key →
              False := by
            rintro ⟨h1, h2, h3⟩
            apply hcd
            refine ⟨h1, h2, ?_⟩
            rw [← h3]
            have hkle : 7 + (readEntryHeader d (bs + cur)).keyLength ≤
                entrySize (readEntryHeader d (bs + cur)) := by
              simp only [entrySize, ENTRY_HEADER_SIZE]
              omega
            apply rdBytes_congr
            intro i hi
            refine (wr1_ne ?_).symm
            simp only [ENTRY_HEADER_SIZE]
            omega
          constructor
          · rw [matchesIn_unfold, if_pos hc, hhd, if_neg hst, if_neg hcnd2, ihm]
          · rw [chainBounded_unfold, if_pos hc, hhd, Bool.and_eq_true]
            exact ⟨hszb, ihc⟩
    · rw [matchesIn_unfold, if_neg hc] at hm
      exact absurd hm (by simp)

end WalkLemmas

section StoreLemmas

attribute [local irreducible] crc8

theorem blockAddr_lt {p : Prefs} {i j : Nat} (hij : i < j) :
    getBlockAddress p i + p.blockSizeBytes ≤ getBlockAddress p j := by
  simp only [getBlockAddress, GLOBAL_HEADER_SIZE]
  have h1 : (i + 1) * p.blockSizeBytes ≤ j * p.blockSizeBytes :=
    Nat.mul_le_mul_right _ (by omega)
  have h2 : i * p.blockSizeBytes + p.blockSizeBytes = (i + 1) * p.blockSizeBytes := by ring
  omega

theorem blockOK_elim {d : Dev} {p : Prefs} {i : Nat} {h : BlockHdr}
    (hOK : blockOK d p i = true) (hr : readBlockHeader d p i = some h)
    (hst : h.status = BLOCK_STATUS_ACTIVE ∨ h.status = BLOCK_STATUS_VALID) :
    chainBounded d (getBlockAddress p i) h.currentOffset BLOCK_HEADER_SIZE = true ∧
    h.currentOffset ≤ p.blockSizeBytes := by
  unfold blockOK at hOK
  rw [hr] at hOK
  dsimp only at hOK
  rw [if_pos hst, Bool.and_eq_true] at hOK
  exact ⟨hOK.1, of_decide_eq_true hOK.2⟩

theorem blockMatches_mem {d : Dev} {p : Prefs} {key : List Nat} {i a : Nat}
    (hOK : blockOK d p i = true) (ha : a ∈ blockMatches d p key i) :
    getBlockAddress p i + BLOCK_HEADER_SIZE ≤ a ∧
    a < getBlockAddress p i + p.blockSizeBytes := by
  unfold blockMatches at ha
  split at ha
  · rename_i h hr
    split at ha
    · rename_i hst
      obtain ⟨_, hoff⟩ := blockOK_elim hOK hr hst
      have hm := matchesIn_mem _ _ ha
      omega
    · simp at ha
  · simp at ha

theorem blockMatches_congr {d1 d2 : Dev} {p : Prefs} {key : List Nat} {i : Nat}
    (hB : 4 ≤ p.blockSizeBytes)
    (hOK : blockOK d1 p i = true)
    (hag : ∀ x, getBlockAddress p i ≤ x → x < getBlockAddress p i + p.blockSizeBytes →
      d2 x = d1 x) :
    blockMatches d2 p key i = blockMatches d1 p key i ∧ blockOK d2 p i = true := by
  have hhdr : readBlockHeader d2 p i = readBlockHeader d1 p i := by
    apply readBlockHeader_congr
    intro k hk
    exact hag _ (Nat.le_add_right _ _) (by omega)
  unfold blockMatches blockOK
  rw [hhdr]
  cases hr : readBlockHeader d1 p i with
  | none => exact ⟨rfl, rfl⟩
  | some h =>
    by_cases hst : h.status = BLOCK_STATUS_ACTIVE ∨ h.status = BLOCK_STATUS_VALID
    · obtain ⟨hcb, hoff⟩ := blockOK_elim hOK hr hst
      have hagw : ∀ x, getBlockAddress p i + BLOCK_HEADER_SIZE ≤ x →
          x < getBlockAddress p i + h.currentOffset → d2 x = d1 x := by
        intro x hx1 hx2
        refine hag x (by simp only [BLOCK_HEADER_SIZE] at hx1; omega) (by omega)
      obtain ⟨hm, hcb2⟩ := matchesIn_congr BLOCK_HEADER_SIZE hcb hagw
      constructor
      · show (if h.status = BLOCK_STATUS_ACTIVE ∨ h.status = BLOCK_STATUS_VALID then
            matchesIn d2 key (getBlockAddress p i) h.currentOffset BLOCK_HEADER_SIZE
          else []) =
          (if h.status = BLOCK_STATUS_ACTIVE ∨ h.status = BLOCK_STATUS_VALID then
            matchesIn d1 key (getBlockAddress p i) h.currentOffset BLOCK_HEADER_SIZE
          else [])
        rw [if_pos hst, if_pos hst]
        exact hm
      · show (if h.status = BLOCK_STATUS_ACTIVE ∨ h.status = BLOCK_STATUS_VALID then
            chainBounded d2 (getBlockAddress p i) h.currentOffset BLOCK_HEADER_SIZE &&
              decide (h.currentOffset ≤ p.blockSizeBytes)
          else true) = true
        rw [if_pos hst, hcb2, Bool.true_and]
        exact decide_eq_true hoff
    · constructor
      · show (if h.status = BLOCK_STATUS_ACTIVE ∨ h.status = BLOCK_STATUS_VALID then
            matchesIn d2 key (getBlockAddress p i) h.currentOffset BLOCK_HEADER_SIZE
          else []) =
          (if h.status = BLOCK_STATUS_ACTIVE ∨ h.status = BLOCK_STATUS_VALID then
            matchesIn d1 key (getBlockAddress p i) h.currentOffset BLOCK_HEADER_SIZE
          else [])
        rw [if_neg hst, if_neg hst]
      · show (if h.status = BLOCK_STATUS_ACTIVE ∨ h.status = BLOCK_STATUS_VALID then
            chainBounded d2 (getBlockAddress p i) h.currentOffset BLOCK_HEADER_SIZE &&
              decide (h.currentOffset ≤ p.blockSizeBytes)
          else true) = true
        rw [if_neg hst]

theorem findInBlocks_eq_head (d : Dev) (p : Prefs) (key : List Nat) :
    ∀ l : List Nat, findInBlocks d p key l = (l.flatMap (blockMatches d p key)).head? := by
  intro l
  induction l with
  | nil => rfl
  | cons i t ih =>
    rw [List.flatMap_cons]
    cases hr : readBlockHeader d p i with
    | none =>
      have hL : findInBlocks d p key (i :: t) = findInBlocks d p key t := by
        conv_lhs => rw [findInBlocks]
        rw [hr]
      have hB : blockMatches d p key i = [] := by
        unfold blockMatches
        rw [hr]
      rw [hL, hB, ih, List.nil_append]
    | some h =>
      have hL : findInBlocks d p key (i :: t) =
          if h.status = BLOCK_STATUS_ACTIVE ∨ h.status = BLOCK_STATUS_VALID then
            match scanFrom d key (getBlockAddress p i) h.currentOffset BLOCK_HEADER_SIZE with
            | some a => some a
            | none => findInBlocks d p key t
          else findInBlocks d p key t := by
        conv_lhs => rw [findInBlocks]
        rw [hr]
      have hB : blockMatches d p key i =
          if h.status = BLOCK_STATUS_ACTIVE ∨ h.status = BLOCK_STATUS_VALID then
            matchesIn d key (getBlockAddress p i) h.currentOffset BLOCK_HEADER_SIZE
          else [] := by
        unfold blockMatches
        rw [hr]
      by_cases hst : h.status = BLOCK_STATUS_ACTIVE ∨ h.status = BLOCK_STATUS_VALID
      · rw [hL, hB, if_pos hst, if_pos hst, scanFrom_eq_head]
        cases hm : matchesIn d key (getBlockAddress p i) h.currentOffset BLOCK_HEADER_SIZE with
        | nil => simpa using ih
        | cons a t' => simp
      · rw [hL, hB, if_neg hst, if_neg hst]
        simpa using ih

theorem findEntry_eq_head {d : Dev} {p : Prefs} {key : List Nat}
    (hinit : p.isInitialized = true) :
    findEntry d p key = (storeMatches d p key).head? := by
  unfold findEntry storeMatches
  rw [hinit, if_pos rfl]
  exact findInBlocks_eq_head d p key _

theorem flatMap_congr_mem {l : List Nat} {f g : Nat → List Nat}
    (h : ∀ a ∈ l, f a = g a) : l.flatMap f = l.flatMap g := by
  induction l with
  | nil => rfl
  | cons x t ih =>
    rw [List.flatMap_cons, List.flatMap_cons, h x (List.mem_cons_self _ _),
      ih (fun a ha => h a (List.mem_cons_of_mem _ ha))]

theorem flatMap_tombstone_aux {d : Dev} {p : Prefs} {key : List Nat} {A : Nat}
    (hB : 4 ≤ p.blockSizeBytes)
    (hN : ∀ i < p.totalBlocks, blockOK d p i = true) :
    ∀ (l rest : List Nat), l.Nodup → (∀ i ∈ l, i < p.totalBlocks) →
    (∃ k, k < p.totalBlocks ∧ A ∈ blockMatches d p key k) →
    l.flatMap (blockMatches d p key) = A :: rest →
    l.flatMap (blockMatches (wr1 d A 0) p key) = rest ∧
    (∀ i ∈ l, blockOK (wr1 d A 0) p i = true) := by
  intro l
  induction l with
  | nil =>
    intro rest _ _ _ hflat
    simp at hflat
  | cons i t ih =>
    intro rest hnd hmem hk hflat
    obtain ⟨k, hkN, hAk⟩ := hk
    have hiN : i < p.totalBlocks := hmem i (List.mem_cons_self _ _)
    have hApos := blockMatches_mem (hN k hkN) hAk
    rw [List.flatMap_cons] at hflat ⊢
    cases hmi : blockMatches d p key i with
    | nil =>
      rw [hmi, List.nil_append] at hflat
      -- the tombstoned entry lies in another block, whose region is disjoint
      have hki : k ≠ i := by
        intro he
        rw [he, hmi] at hAk
        simp at hAk
      have hout : ∀ x, getBlockAddress p i ≤ x →
          x < getBlockAddress p i + p.blockSizeBytes → wr1 d A 0 x = d x := by
        intro x hx1 hx2
        apply wr1_ne
        rcases Nat.lt_or_ge k i with hlt | hge
        · have := @blockAddr_lt p k i hlt
          simp only [BLOCK_HEADER_SIZE] at hApos
          omega
        · have hlt : i < k := by omega
          have := @blockAddr_lt p i k hlt
          simp only [BLOCK_HEADER_SIZE] at hApos
          omega
      obtain ⟨hmi2, hOKi2⟩ := blockMatches_congr hB (hN i hiN) hout
      rw [hmi2, hmi, List.nil_append]
      obtain ⟨ht, hOKt⟩ := ih rest (List.Nodup.of_cons hnd)
        (fun j hj => hmem j (List.mem_cons_of_mem _ hj)) ⟨k, hkN, hAk⟩ hflat
      refine ⟨ht, ?_⟩
      intro j hj
      rcases List.mem_cons.mp hj with hj | hj
      · rw [hj]; exact hOKi2
      · exact hOKt j hj
    | cons a t' =>
      rw [hmi, List.cons_append, List.cons.injEq] at hflat
      obtain ⟨hAa, hrest⟩ := hflat
      subst hAa
      -- the tombstoned entry is the head of this block's matches
      have hAi : a ∈ blockMatches d p key i := by rw [hmi]; exact List.mem_cons_self _ _
      have hAipos := blockMatches_mem (hN i hiN) hAi
      have hhdr : readBlockHeader (wr1 d a 0) p i = readBlockHeader d p i := by
        apply readBlockHeader_congr
        intro kk hkk
        apply wr1_ne
        simp only [BLOCK_HEADER_SIZE] at hAipos
        omega
      have hblock : blockMatches (wr1 d a 0) p key i = t' ∧
          blockOK (wr1 d a 0) p i = true := by
        unfold blockMatches at hmi ⊢
        unfold blockOK
        rw [hhdr]
        cases hr : readBlockHeader d p i with
        | none => rw [hr] at hmi; simp at hmi
        | some h =>
          rw [hr] at hmi
          dsimp only at hmi ⊢
          by_cases hst : h.status = BLOCK_STATUS_ACTIVE ∨ h.status = BLOCK_STATUS_VALID
          · rw [if_pos hst] at hmi ⊢
            obtain ⟨hcb, hoff⟩ := blockOK_elim (hN i hiN) hr hst
            obtain ⟨hm2, hcb2⟩ := matchesIn_tombstone BLOCK_HEADER_SIZE a t' hcb hmi
            refine ⟨hm2, ?_⟩
            rw [if_pos hst, hcb2, Bool.true_and]
            exact decide_eq_true hoff
          · rw [if_neg hst] at hmi
            simp at hmi
      -- the remaining blocks are untouched
      have htail : ∀ j ∈ t, blockMatches (wr1 d a 0) p key j = blockMatches d p key j ∧
          blockOK (wr1 d a 0) p j = true := by
        intro j hj
        have hjN : j < p.totalBlocks := hmem j (List.mem_cons_of_mem _ hj)
        have hji : j ≠ i := by
          intro he
          exact (List.nodup_cons.mp hnd).1 (he ▸ hj)
        have hout : ∀ x, getBlockAddress p j ≤ x →
            x < getBlockAddress p j + p.blockSizeBytes → wr1 d a 0 x = d x := by
          intro x hx1 hx2
          apply wr1_ne
          rcases Nat.lt_or_ge i j with hlt | hge
          · have := @blockAddr_lt p i j hlt
            simp only [BLOCK_HEADER_SIZE] at hAipos
            omega
          · have hlt : j < i := by omega
            have := @blockAddr_lt p j i hlt
            simp only [BLOCK_HEADER_SIZE] at hAipos
            omega
        exact blockMatches_congr hB (hN j hjN) hout
      have htailmap : t.flatMap (blockMatches (wr1 d a 0) p key) =
          t.flatMap (blockMatches d p key) :=
        flatMap_congr_mem (fun j hj => (htail j hj).1)
      refine ⟨by rw [hblock.1, htailmap, hrest], ?_⟩
      intro j hj
      rcases List.mem_cons.mp hj with hj | hj
      · rw [hj]; exact hblock.2
      · exact (htail j hj).2

theorem storeMatches_tombstone {d : Dev} {p : Prefs} {key : List Nat} {A : Nat}
    {rest : List Nat} (hg : GeomOK p) (hOK : BlocksOK d p)
    (hsm : storeMatches d p key = A :: rest) :
    storeMatches (wr1 d A 0) p key = rest ∧ BlocksOK (wr1 d A 0) p ∧
    (∀ i, readBlockHeader (wr1 d A 0) p i = readBlockHeader d p i) := by
  obtain ⟨hB, _⟩ := hg
  have hAmem : A ∈ storeMatches d p key := by rw [hsm]; exact List.mem_cons_self _ _
  obtain ⟨k, hkl, hAk⟩ := List.mem_flatMap.mp hAmem
  have hkN : k < p.totalBlocks := List.mem_range.mp hkl
  have hApos := blockMatches_mem (hOK k hkN) hAk
  obtain ⟨hmap, hOK2⟩ := flatMap_tombstone_aux hB hOK (List.range p.totalBlocks) rest
    (List.nodup_range _) (fun i hi => List.mem_range.mp hi) ⟨k, hkN, hAk⟩ hsm
  refine ⟨hmap, ?_, ?_⟩
  · intro i hi
    exact hOK2 i (List.mem_range.mpr hi)
  · intro i
    apply readBlockHeader_congr
    intro kk hkk
    apply wr1_ne
    rcases Nat.lt_trichotomy i k with hlt | heq | hgt
    · have := @blockAddr_lt p i k hlt
      simp only [BLOCK_HEADER_SIZE] at hApos
      omega
    · subst heq
      simp only [BLOCK_HEADER_SIZE] at hApos
      omega
    · have := @blockAddr_lt p k i hgt
      simp only [BLOCK_HEADER_SIZE] at hApos
      omega

/-- C9: idempotence of delete on an initialized, well-formed store.  When the
key has exactly one match, a live entry at address `A`, the first `remove`
returns true and tombstones it with the single-byte write, and a second
`remove` on the resulting device returns false and changes nothing, because
the lookup skips tombstoned entries.  When the key has no match, `remove`
returns false and leaves the device unchanged, so a second call behaves
identically. -/
theorem c9_remove_idempotent {d : Dev} {p : Prefs} {key : List Nat}
    (hg : GeomOK p) (hOK : BlocksOK d p) (hinit : p.isInitialized = true) :
    (∀ A, storeMatches d p key = [A] → rd1 d A = 1 →
      removeKey d p key = (true, wr1 d A 0) ∧
      removeKey (wr1 d A 0) p key = (false, wr1 d A 0)) ∧
    (storeMatches d p key = [] → removeKey d p key = (false, d)) := by
  constructor
  · intro A hsm h1
    have hf : findEntry d p key = some A := by
      rw [findEntry_eq_head hinit, hsm]
      rfl
    have hApos : 0 < A := findEntry_pos hf
    obtain ⟨hsm2, _, _⟩ := storeMatches_tombstone hg hOK hsm
    have hf2 : findEntry (wr1 d A 0) p key = none := by
      rw [findEntry_eq_head hinit, hsm2]
      rfl
    constructor
    · unfold removeKey
      rw [hf]
      show markEntryAsDeleted d A = (true, wr1 d A 0)
      unfold markEntryAsDeleted
      rw [if_neg (by omega), if_neg (not_not_intro h1)]
    · unfold removeKey
      rw [hf2]
  · intro hsm
    have hf : findEntry d p key = none := by
      rw [findEntry_eq_head hinit, hsm]
      rfl
    unfold removeKey
    rw [hf]

end StoreLemmas

/-- Concrete run of the idempotent-delete theorem: on the freshly begun store
holding one 16-byte record for key 107, whose entry header sits at address 11,
the first remove tombstones it and the second finds nothing. -/
theorem c9_witness :
    removeKey stA2.2.1 stA2.2.2 [107] = (true, wr1 stA2.2.1 11 0) ∧
    removeKey (wr1 stA2.2.1 11 0) stA2.2.2 [107] = (false, wr1 stA2.2.1 11 0) :=
  (c9_remove_idempotent (by decide) (by decide) (by decide)).1 11 (by decide) (by decide)

section RoundTrip

attribute [local irreducible] crc8

theorem entry_mk_status (st dt kh kl vl : Nat) : (EntryHdr.mk st dt kh kl vl).status = st := rfl

theorem entry_mk_dataType (st dt kh kl vl : Nat) :
    (EntryHdr.mk st dt kh kl vl).dataType = dt := rfl

theorem entry_mk_keyHash (st dt kh kl vl : Nat) :
    (EntryHdr.mk st dt kh kl vl).keyHash = kh := rfl

theorem entry_mk_keyLength (st dt kh kl vl : Nat) :
    (EntryHdr.mk st dt kh kl vl).keyLength = kl := rfl

theorem entry_mk_valueLength (st dt kh kl vl : Nat) :
    (EntryHdr.mk st dt kh kl vl).valueLength = vl := rfl

theorem chainBounded_le {d : Dev} {bs off cur : Nat}
    (h : chainBounded d bs off cur = true) : cur ≤ off := by
  rw [chainBounded_unfold] at h
  by_cases hc : cur < off
  · omega
  · rw [if_neg hc] at h
    have := of_decide_eq_true h
    omega

theorem matchesIn_split {d : Dev} {key : List Nat} {bs off off2 : Nat}
    (hoff : off ≤ off2) :
    ∀ cur, chainBounded d bs off cur = true →
    matchesIn d key bs off2 cur =
      matchesIn d key bs off cur ++ matchesIn d key bs off2 off := by
  suffices h : ∀ n cur, off - cur ≤ n → chainBounded d bs off cur = true →
      matchesIn d key bs off2 cur =
        matchesIn d key bs off cur ++ matchesIn d key bs off2 off by
    intro cur hcb
    exact h (off - cur) cur le_rfl hcb
  intro n
  induction n with
  | zero =>
    intro cur hle hcb
    have hnc : ¬ cur < off := by omega
    rw [chainBounded_unfold, if_neg hnc] at hcb
    have he : cur = off := of_decide_eq_true hcb
    subst he
    rw [matchesIn_unfold d key bs cur cur, if_neg (lt_irrefl cur), List.nil_append]
  | succ m ih =>
    intro cur hle hcb
    by_cases hc : cur < off
    · rw [chainBounded_unfold, if_pos hc, Bool.and_eq_true] at hcb
      obtain ⟨hsz, hcb2⟩ := hcb
      replace hsz := of_decide_eq_true hsz
      have hc2 : cur < off2 := by omega
      have hes := entrySize_ge (readEntryHeader d (bs + cur))
      have ihh := ih (cur + entrySize (readEntryHeader d (bs + cur))) (by omega) hcb2
      rw [matchesIn_unfold d key bs off2 cur, if_pos hc2,
          matchesIn_unfold d key bs off cur, if_pos hc]
      by_cases hst : (readEntryHeader d (bs + cur)).status = 0
      · rw [if_pos hst, if_pos hst, ihh]
      · rw [if_neg hst, if_neg hst]
        by_cases hcond : (readEntryHeader d (bs + cur)).keyHash = hashKey key ∧
            (readEntryHeader d (bs + cur)).keyLength = keyLen8 key ∧
            rdBytes d (bs + cur + ENTRY_HEADER_SIZE) (keyLen8 key) = keyImage key
        · rw [if_pos hcond, if_pos hcond, ihh, List.cons_append]
        · rw [if_neg hcond, if_neg hcond, ihh]
    · rw [chainBounded_unfold, if_neg hc] at hcb
      have he : cur = off := of_decide_eq_true hcb
      subst he
      rw [matchesIn_unfold d key bs cur cur, if_neg (lt_irrefl cur), List.nil_append]

theorem flatMap_nil_of {f : Nat → List Nat} :
    ∀ l : List Nat, (∀ i ∈ l, f i = []) → l.flatMap f = [] := by
  intro l
  induction l with
  | nil => intro _; rfl
  | cons x t ih =>
    intro h
    rw [List.flatMap_cons, h x (List.mem_cons_self _ _), List.nil_append]
    exact ih (fun i hi => h i (List.mem_cons_of_mem _ hi))

theorem flatMap_single {f : Nat → List Nat} {k : Nat} {v : List Nat}
    (hfa : f k = v) :
    ∀ l : List Nat, l.Nodup → k ∈ l → (∀ i ∈ l, i ≠ k → f i = []) →
      l.flatMap f = v := by
  intro l
  induction l with
  | nil =>
    intro _ hmem _
    simp at hmem
  | cons x t ih =>
    intro hnd hmem h
    rw [List.flatMap_cons]
    rcases List.mem_cons.mp hmem with he | hmt
    · subst he
      rw [hfa, flatMap_nil_of t
        (fun i hi => h i (List.mem_cons_of_mem _ hi)
          (fun hik => (List.nodup_cons.mp hnd).1 (hik ▸ hi))), List.append_nil]
    · rw [h x (List.mem_cons_self _ _)
        (fun hx => (List.nodup_cons.mp hnd).1 (hx ▸ hmt)), List.nil_append]
      exact ih (List.nodup_cons.mp hnd).2 hmt
        (fun i hi hik => h i (List.mem_cons_of_mem _ hi) hik)

theorem blockMatches_eq {d : Dev} {p : Prefs} {i : Nat} {h : BlockHdr}
    (hr : readBlockHeader d p i = some h)
    (hst : h.status = BLOCK_STATUS_ACTIVE ∨ h.status = BLOCK_STATUS_VALID)
    (key : List Nat) :
    blockMatches d p key i =
      matchesIn d key (getBlockAddress p i) h.currentOffset BLOCK_HEADER_SIZE := by
  unfold blockMatches
  rw [hr]
  show (if h.status = BLOCK_STATUS_ACTIVE ∨ h.status = BLOCK_STATUS_VALID then
      matchesIn d key (getBlockAddress p i) h.currentOffset BLOCK_HEADER_SIZE
    else []) = _
  rw [if_pos hst]

theorem appendEntry_outside (d : Dev) (p : Prefs) (off : Nat) (key : List Nat)
    (ty : Nat) (val : List Nat) (x : Nat)
    (h : x < getBlockAddress p p.activeBlockIndex + off ∨
      getBlockAddress p p.activeBlockIndex + off +
        (ENTRY_HEADER_SIZE + keyLen8 key + val.length) ≤ x) :
    appendEntry d p off key ty val x = d x := by
  have hk8 : keyLen8 key ≤ key.length := Nat.mod_le _ _
  have hlen : (key.take (keyLen8 key)).length = keyLen8 key := by
    rw [List.length_take]
    omega
  have hlh : (entryHeaderBytes
      (⟨1, ty, hashKey key, keyLen8 key, val.length⟩ : EntryHdr)).length = 7 := rfl
  unfold appendEntry
  have h3 : getBlockAddress p p.activeBlockIndex + off + ENTRY_HEADER_SIZE + keyLen8 key +
        val.length ≤ x ∨
      x < getBlockAddress p p.activeBlockIndex + off + ENTRY_HEADER_SIZE + keyLen8 key := by
    simp only [ENTRY_HEADER_SIZE] at h ⊢
    omega
  have h2 : getBlockAddress p p.activeBlockIndex + off + ENTRY_HEADER_SIZE +
        (key.take (keyLen8 key)).length ≤ x ∨
      x < getBlockAddress p p.activeBlockIndex + off + ENTRY_HEADER_SIZE := by
    rw [hlen]
    simp only [ENTRY_HEADER_SIZE] at h ⊢
    omega
  have h1 : getBlockAddress p p.activeBlockIndex + off +
        (entryHeaderBytes
          (⟨1, ty, hashKey key, keyLen8 key, val.length⟩ : EntryHdr)).length ≤ x ∨
      x < getBlockAddress p p.activeBlockIndex + off := by
    rw [hlh]
    simp only [ENTRY_HEADER_SIZE] at h
    omega
  rw [wrBytes_outside h3.symm, wrBytes_outside h2.symm, wrBytes_outside h1.symm]

theorem appendEntry_byte (d : Dev) (p : Prefs) (off : Nat) (key : List Nat)
    (ty : Nat) (val : List Nat) (i : Nat) (hi : i < 7) :
    appendEntry d p off key ty val (getBlockAddress p p.activeBlockIndex + off + i) =
      (entryHeaderBytes
        (⟨1, ty, hashKey key, keyLen8 key, val.length⟩ : EntryHdr)).getD i 0 % 256 := by
  have hk8 : keyLen8 key ≤ key.length := Nat.mod_le _ _
  have hlen : (key.take (keyLen8 key)).length = keyLen8 key := by
    rw [List.length_take]
    omega
  have hlh : (entryHeaderBytes
      (⟨1, ty, hashKey key, keyLen8 key, val.length⟩ : EntryHdr)).length = 7 := rfl
  unfold appendEntry
  have h3 : getBlockAddress p p.activeBlockIndex + off + i <
      getBlockAddress p p.activeBlockIndex + off + ENTRY_HEADER_SIZE + keyLen8 key := by
    simp only [ENTRY_HEADER_SIZE]
    omega
  have h2 : getBlockAddress p p.activeBlockIndex + off + i <
      getBlockAddress p p.activeBlockIndex + off + ENTRY_HEADER_SIZE := by
    simp only [ENTRY_HEADER_SIZE]
    omega
  rw [wrBytes_outside (Or.inl h3), wrBytes_outside (Or.inl h2)]
  exact wrBytes_get i (by rw [hlh]; exact hi)

theorem appendEntry_header (d : Dev) (p : Prefs) (off : Nat) (key : List Nat)
    (ty : Nat) (val : List Nat) (hty : ty < 256) (hvl : val.length < 65536) :
    readEntryHeader (appendEntry d p off key ty val)
      (getBlockAddress p p.activeBlockIndex + off) =
      ⟨1, ty, hashKey key, keyLen8 key, val.length⟩ := by
  have hh := hashKey_lt key
  have hkl : keyLen8 key < 256 := Nat.mod_lt _ (by norm_num)
  have g0 := appendEntry_byte d p off key ty val 0 (by norm_num)
  have g1 := appendEntry_byte d p off key ty val 1 (by norm_num)
  have g2 := appendEntry_byte d p off key ty val 2 (by norm_num)
  have g3 := appendEntry_byte d p off key ty val 3 (by norm_num)
  have g4 := appendEntry_byte d p off key ty val 4 (by norm_num)
  have g5 := appendEntry_byte d p off key ty val 5 (by norm_num)
  have g6 := appendEntry_byte d p off key ty val 6 (by norm_num)
  rw [Nat.add_zero] at g0
  have e0 : (entryHeaderBytes
      (⟨1, ty, hashKey key, keyLen8 key, val.length⟩ : EntryHdr)).getD 0 0 = 1 := rfl
  have e1 : (entryHeaderBytes
      (⟨1, ty, hashKey key, keyLen8 key, val.length⟩ : EntryHdr)).getD 1 0 = ty := rfl
  have e2 : (entryHeaderBytes
      (⟨1, ty, hashKey key, keyLen8 key, val.length⟩ : EntryHdr)).getD 2 0 =
      hashKey key % 256 := rfl
  have e3 : (entryHeaderBytes
      (⟨1, ty, hashKey key, keyLen8 key, val.length⟩ : EntryHdr)).getD 3 0 =
      hashKey key / 256 % 256 := rfl
  have e4 : (entryHeaderBytes
      (⟨1, ty, hashKey key, keyLen8 key, val.length⟩ : EntryHdr)).getD 4 0 =
      keyLen8 key := rfl
  have e5 : (entryHeaderBytes
      (⟨1, ty, hashKey key, keyLen8 key, val.length⟩ : EntryHdr)).getD 5 0 =
      val.length % 256 := rfl
  have e6 : (entryHeaderBytes
      (⟨1, ty, hashKey key, keyLen8 key, val.length⟩ : EntryHdr)).getD 6 0 =
      val.length / 256 % 256 := rfl
  rw [e0] at g0
  rw [e1] at g1
  rw [e2] at g2
  rw [e3] at g3
  rw [e4] at g4
  rw [e5] at g5
  rw [e6] at g6
  unfold readEntryHeader rd16 rd1
  rw [show getBlockAddress p p.activeBlockIndex + off + 2 + 1 =
      getBlockAddress p p.activeBlockIndex + off + 3 from by omega,
    show getBlockAddress p p.activeBlockIndex + off + 5 + 1 =
      getBlockAddress p p.activeBlockIndex + off + 6 from by omega]
  rw [g0, g1, g2, g3, g4, g5, g6]
  simp only [EntryHdr.mk.injEq]
  refine ⟨trivial, by omega, by omega, by omega, by omega⟩

theorem appendEntry_key (d : Dev) (p : Prefs) (off : Nat) (key : List Nat)
    (ty : Nat) (val : List Nat) :
    rdBytes (appendEntry d p off key ty val)
      (getBlockAddress p p.activeBlockIndex + off + ENTRY_HEADER_SIZE)
      (keyLen8 key) = keyImage key := by
  have hk8 : keyLen8 key ≤ key.length := Nat.mod_le _ _
  have hlen : (key.take (keyLen8 key)).length = keyLen8 key := by
    rw [List.length_take]
    omega
  unfold appendEntry
  have hout : ∀ i < keyLen8 key,
      wrBytes (wrBytes (wrBytes d (getBlockAddress p p.activeBlockIndex + off)
          (entryHeaderBytes (⟨1, ty, hashKey key, keyLen8 key, val.length⟩ : EntryHdr)))
        (getBlockAddress p p.activeBlockIndex + off + ENTRY_HEADER_SIZE)
        (key.take (keyLen8 key)))
        (getBlockAddress p p.activeBlockIndex + off + ENTRY_HEADER_SIZE + keyLen8 key) val
        (getBlockAddress p p.activeBlockIndex + off + ENTRY_HEADER_SIZE + i) =
      wrBytes (wrBytes d (getBlockAddress p p.activeBlockIndex + off)
          (entryHeaderBytes (⟨1, ty, hashKey key, keyLen8 key, val.length⟩ : EntryHdr)))
        (getBlockAddress p p.activeBlockIndex + off + ENTRY_HEADER_SIZE)
        (key.take (keyLen8 key))
        (getBlockAddress p p.activeBlockIndex + off + ENTRY_HEADER_SIZE + i) := by
    intro i hi
    exact wrBytes_outside (Or.inl (by omega))
  rw [rdBytes_congr hout]
  have hrw := rdBytes_wrBytes (wrBytes d (getBlockAddress p p.activeBlockIndex + off)
      (entryHeaderBytes (⟨1, ty, hashKey key, keyLen8 key, val.length⟩ : EntryHdr)))
    (getBlockAddress p p.activeBlockIndex + off + ENTRY_HEADER_SIZE) (key.take (keyLen8 key))
  rw [hlen] at hrw
  rw [hrw]
  unfold keyImage
  rw [List.map_take]

theorem appendEntry_val (d : Dev) (p : Prefs) (off : Nat) (key : List Nat)
    (ty : Nat) (val : List Nat) :
    rdBytes (appendEntry d p off key ty val)
      (getBlockAddress p p.activeBlockIndex + off + ENTRY_HEADER_SIZE + keyLen8 key)
      val.length = val.map (fun b => b % 256) := by
  unfold appendEntry
  exact rdBytes_wrBytes _ _ val

theorem writeEntry_step {d d1 : Dev} {p : Prefs} {key : List Nat} {ty : Nat}
    {val : List Nat} {bh : BlockHdr}
    (hinit : p.isInitialized = true)
    (hcap : ¬ (p.maxKeyLength < keyLen8 key ∨ p.maxValueLength < val.length))
    (hd1 : (match findEntry d p key with
            | some a => (markEntryAsDeleted d a).2
            | none => d) = d1)
    (hbh : readBlockHeader d1 p p.activeBlockIndex = some bh)
    (hact : bh.status = BLOCK_STATUS_ACTIVE)
    (hfit : ¬ (p.blockSizeBytes < bh.currentOffset +
      (ENTRY_HEADER_SIZE + keyLen8 key + val.length) % 65536)) :
    writeEntry d p key ty val = appendAndCommit d1 p bh key ty val := by
  unfold writeEntry
  rw [if_neg (by rw [hinit]; exact fun h => Bool.noConfusion h), if_neg hcap, hd1]
  show (match readBlockHeader d1 p p.activeBlockIndex with
    | none => (false, d1, p)
    | some bh =>
      if bh.status ≠ BLOCK_STATUS_ACTIVE then (false, d1, p)
      else
        if p.blockSizeBytes < bh.currentOffset +
            (ENTRY_HEADER_SIZE + keyLen8 key + val.length) % 65536 then
          match runGarbageCollection d1 p with
          | (false, d2, p2) => (false, d2, p2)
          | (true, d2, p2) =>
            match readBlockHeader d2 p2 p2.activeBlockIndex with
            | none => (false, d2, p2)
            | some bh2 =>
              if bh2.status ≠ BLOCK_STATUS_ACTIVE then (false, d2, p2)
              else appendAndCommit d2 p2 bh2 key ty val
        else appendAndCommit d1 p bh key ty val) = appendAndCommit d1 p bh key ty val
  rw [hbh]
  show (if bh.status ≠ BLOCK_STATUS_ACTIVE then (false, d1, p)
    else
      if p.blockSizeBytes < bh.currentOffset +
          (ENTRY_HEADER_SIZE + keyLen8 key + val.length) % 65536 then
        match runGarbageCollection d1 p with
        | (false, d2, p2) => (false, d2, p2)
        | (true, d2, p2) =>
          match readBlockHeader d2 p2 p2.activeBlockIndex with
          | none => (false, d2, p2)
          | some bh2 =>
            if bh2.status ≠ BLOCK_STATUS_ACTIVE then (false, d2, p2)
            else appendAndCommit d2 p2 bh2 key ty val
      else appendAndCommit d1 p bh key ty val) = appendAndCommit d1 p bh key ty val
  rw [if_neg (not_not_intro hact), if_neg hfit]

theorem bh_mk_status (st off : Nat) : (BlockHdr.mk st off).status = st := rfl

theorem bh_mk_currentOffset (st off : Nat) : (BlockHdr.mk st off).currentOffset = off := rfl

theorem flatMap_eq_nil {f : Nat → List Nat} :
    ∀ l : List Nat, l.flatMap f = [] → ∀ i ∈ l, f i = [] := by
  intro l
  induction l with
  | nil =>
    intro _ i hi
    simp at hi
  | cons x t ih =>
    intro h i hi
    rw [List.flatMap_cons] at h
    have h2 := List.append_eq_nil.mp h
    rcases List.mem_cons.mp hi with he | hmt
    · rw [he]
      exact h2.1
    · exact ih h2.2 i hmt

/-- C5: put/get round-trip.  On an initialized, geometry- and chain-sane
store whose active block header is readable and ACTIVE with room for the
record, and where the key currently has no match or exactly one live match,
`_writeEntry` succeeds and reading the key back — with the typed getter
(`getValueBytes`, which checks the type tag and the value size) or the
complex getter (`getComplexValue`) — returns exactly the stored value, not
the caller's default. -/
theorem c5_put_get_roundtrip {d : Dev} {p : Prefs} {key : List Nat} {ty : Nat}
    {val : List Nat} {bh : BlockHdr} (dflt : List Nat) (maxLen : Nat)
    (hg : GeomOK p) (hOK : BlocksOK d p) (hinit : p.isInitialized = true)
    (hk : key.length ≤ p.maxKeyLength) (hv : val.length ≤ p.maxValueLength)
    (hvb : ∀ b ∈ val, b < 256) (hty : ty < 256) (hml : val.length ≤ maxLen)
    (hbh : readBlockHeader d p p.activeBlockIndex = some bh)
    (hact : bh.status = BLOCK_STATUS_ACTIVE)
    (hfit : bh.currentOffset + (ENTRY_HEADER_SIZE + key.length + val.length) ≤
      p.blockSizeBytes)
    (hone : storeMatches d p key = [] ∨
      ∃ A, storeMatches d p key = [A] ∧ rd1 d A = 1) :
    (writeEntry d p key ty val).1 = true ∧
    getValueBytes (writeEntry d p key ty val).2.1 (writeEntry d p key ty val).2.2
      key val.length ty dflt = val ∧
    getComplexValue (writeEntry d p key ty val).2.1 (writeEntry d p key ty val).2.2
      key maxLen ty = val := by
  have hB4 : 4 ≤ p.blockSizeBytes := hg.1
  have hB65 : p.blockSizeBytes < 65536 := hg.2.1
  have hKmax : p.maxKeyLength < 256 := hg.2.2.1
  have haN : p.activeBlockIndex < p.totalBlocks := hg.2.2.2.1
  have hk8 : keyLen8 key = key.length := Nat.mod_eq_of_lt (by omega)
  have hE7 : ENTRY_HEADER_SIZE = 7 := rfl
  have hfit' : bh.currentOffset + (ENTRY_HEADER_SIZE + keyLen8 key + val.length) ≤
      p.blockSizeBytes := by
    rw [hk8]
    exact hfit
  have hszlt : ENTRY_HEADER_SIZE + keyLen8 key + val.length < 65536 := by omega
  have hszmod : (ENTRY_HEADER_SIZE + keyLen8 key + val.length) % 65536 =
      ENTRY_HEADER_SIZE + keyLen8 key + val.length := Nat.mod_eq_of_lt hszlt
  have hcap : ¬ (p.maxKeyLength < keyLen8 key ∨ p.maxValueLength < val.length) := by
    rw [hk8]
    omega
  obtain ⟨d1, hd1, hsm1, hOK1, hhdr1⟩ :
      ∃ d1, (match findEntry d p key with
              | some a => (markEntryAsDeleted d a).2
              | none => d) = d1 ∧
        storeMatches d1 p key = [] ∧ BlocksOK d1 p ∧
        (∀ i, readBlockHeader d1 p i = readBlockHeader d p i) := by
    rcases hone with hsm | ⟨A, hsm, h1⟩
    · exact ⟨d, by rw [findEntry_eq_head hinit, hsm]; rfl, hsm, hOK, fun i => rfl⟩
    · have hf : findEntry d p key = some A := by
        rw [findEntry_eq_head hinit, hsm]
        rfl
      have hApos : 0 < A := findEntry_pos hf
      obtain ⟨hsm2, hOK2, hhdr2⟩ := storeMatches_tombstone hg hOK hsm
      refine ⟨wr1 d A 0, ?_, hsm2, hOK2, hhdr2⟩
      rw [hf]
      show (markEntryAsDeleted d A).2 = wr1 d A 0
      unfold markEntryAsDeleted
      rw [if_neg (by omega), if_neg (not_not_intro h1)]
  have hbh1 : readBlockHeader d1 p p.activeBlockIndex = some bh := by
    rw [hhdr1, hbh]
  have hwe : writeEntry d p key ty val = appendAndCommit d1 p bh key ty val :=
    writeEntry_step hinit hcap hd1 hbh1 hact (by rw [hszmod]; omega)
  have hoff2 : bh.currentOffset + (ENTRY_HEADER_SIZE + keyLen8 key + val.length) < 65536 := by omega
  have hac : appendAndCommit d1 p bh key ty val =
      (true, writeBlockHeader (appendEntry d1 p bh.currentOffset key ty val) p p.activeBlockIndex ⟨bh.status, bh.currentOffset + (ENTRY_HEADER_SIZE + keyLen8 key + val.length)⟩, p) := by
    unfold appendAndCommit
    show (true,
      writeBlockHeader (appendEntry d1 p bh.currentOffset key ty val) p p.activeBlockIndex
        ⟨bh.status,
          (bh.currentOffset + (ENTRY_HEADER_SIZE + keyLen8 key + val.length) % 65536) %
            65536⟩,
      p) = _
    rw [hszmod, Nat.mod_eq_of_lt hoff2]
  obtain ⟨hcb1, hoffB⟩ :=
    blockOK_elim (hOK1 p.activeBlockIndex haN) hbh1 (Or.inl hact)
  have hcur4 : BLOCK_HEADER_SIZE ≤ bh.currentOffset := chainBounded_le hcb1
  simp only [BLOCK_HEADER_SIZE] at hcur4
  have hsm1' : (List.range p.totalBlocks).flatMap (blockMatches d1 p key) = [] := by
    have h := hsm1
    unfold storeMatches at h
    exact h
  have hbm1all := flatMap_eq_nil (List.range p.totalBlocks) hsm1'
  have hE4 : readEntryHeader (writeBlockHeader (appendEntry d1 p bh.currentOffset key ty val) p p.activeBlockIndex ⟨bh.status, bh.currentOffset + (ENTRY_HEADER_SIZE + keyLen8 key + val.length)⟩)
      (getBlockAddress p p.activeBlockIndex + bh.currentOffset) =
      ⟨1, ty, hashKey key, keyLen8 key, val.length⟩ := by
    have hagE : ∀ k, k < 7 → (writeBlockHeader (appendEntry d1 p bh.currentOffset key ty val) p p.activeBlockIndex ⟨bh.status, bh.currentOffset + (ENTRY_HEADER_SIZE + keyLen8 key + val.length)⟩) (getBlockAddress p p.activeBlockIndex + bh.currentOffset + k) =
        (appendEntry d1 p bh.currentOffset key ty val) (getBlockAddress p p.activeBlockIndex + bh.currentOffset + k) := by
      intro k hk
      exact writeBlockHeader_outside (Or.inr (by omega))
    rw [readEntryHeader_congr hagE]
    exact appendEntry_header d1 p bh.currentOffset key ty val hty (by omega)
  have hK4 : rdBytes (writeBlockHeader (appendEntry d1 p bh.currentOffset key ty val) p p.activeBlockIndex ⟨bh.status, bh.currentOffset + (ENTRY_HEADER_SIZE + keyLen8 key + val.length)⟩)
      (getBlockAddress p p.activeBlockIndex + bh.currentOffset + ENTRY_HEADER_SIZE) (keyLen8 key) = keyImage key := by
    have hagK : ∀ i, i < keyLen8 key →
        (writeBlockHeader (appendEntry d1 p bh.currentOffset key ty val) p p.activeBlockIndex ⟨bh.status, bh.currentOffset + (ENTRY_HEADER_SIZE + keyLen8 key + val.length)⟩) (getBlockAddress p p.activeBlockIndex + bh.currentOffset + ENTRY_HEADER_SIZE + i) =
        (appendEntry d1 p bh.currentOffset key ty val) (getBlockAddress p p.activeBlockIndex + bh.currentOffset + ENTRY_HEADER_SIZE + i) := by
      intro i hi
      exact writeBlockHeader_outside (Or.inr (by simp only [ENTRY_HEADER_SIZE]; omega))
    rw [rdBytes_congr hagK]
    exact appendEntry_key d1 p bh.currentOffset key ty val
  have hV4 : rdBytes (writeBlockHeader (appendEntry d1 p bh.currentOffset key ty val) p p.activeBlockIndex ⟨bh.status, bh.currentOffset + (ENTRY_HEADER_SIZE + keyLen8 key + val.length)⟩)
      (getBlockAddress p p.activeBlockIndex + bh.currentOffset + ENTRY_HEADER_SIZE + keyLen8 key) val.length =
      val.map (fun b => b % 256) := by
    have hagV : ∀ i, i < val.length →
        (writeBlockHeader (appendEntry d1 p bh.currentOffset key ty val) p p.activeBlockIndex ⟨bh.status, bh.currentOffset + (ENTRY_HEADER_SIZE + keyLen8 key + val.length)⟩) (getBlockAddress p p.activeBlockIndex + bh.currentOffset + ENTRY_HEADER_SIZE + keyLen8 key + i) =
        (appendEntry d1 p bh.currentOffset key ty val) (getBlockAddress p p.activeBlockIndex + bh.currentOffset + ENTRY_HEADER_SIZE + keyLen8 key + i) := by
      intro i hi
      exact writeBlockHeader_outside (Or.inr (by simp only [ENTRY_HEADER_SIZE]; omega))
    rw [rdBytes_congr hagV]
    exact appendEntry_val d1 p bh.currentOffset key ty val
  have hmapid : val.map (fun b => b % 256) = val := by
    have hid : ∀ b ∈ val, b % 256 = b := fun b hb => Nat.mod_eq_of_lt (hvb b hb)
    rw [List.map_congr_left hid, List.map_id']
  have hag41 : ∀ x, getBlockAddress p p.activeBlockIndex + BLOCK_HEADER_SIZE ≤ x →
      x < getBlockAddress p p.activeBlockIndex + bh.currentOffset →
      (writeBlockHeader (appendEntry d1 p bh.currentOffset key ty val) p p.activeBlockIndex ⟨bh.status, bh.currentOffset + (ENTRY_HEADER_SIZE + keyLen8 key + val.length)⟩) x = d1 x := by
    intro x h1 h2
    rw [writeBlockHeader_outside (Or.inr (by simp only [BLOCK_HEADER_SIZE] at h1; omega))]
    exact appendEntry_outside d1 p bh.currentOffset key ty val x (Or.inl (by omega))
  obtain ⟨hmpre, hcb4⟩ := matchesIn_congr BLOCK_HEADER_SIZE hcb1 hag41
  have hmA := hbm1all p.activeBlockIndex (List.mem_range.mpr haN)
  rw [blockMatches_eq hbh1 (Or.inl hact) key] at hmA
  rw [hmA] at hmpre
  have hstep : matchesIn (writeBlockHeader (appendEntry d1 p bh.currentOffset key ty val) p p.activeBlockIndex ⟨bh.status, bh.currentOffset + (ENTRY_HEADER_SIZE + keyLen8 key + val.length)⟩) key (getBlockAddress p p.activeBlockIndex)
      (bh.currentOffset + (ENTRY_HEADER_SIZE + keyLen8 key + val.length)) bh.currentOffset =
      [getBlockAddress p p.activeBlockIndex + bh.currentOffset] := by
    rw [matchesIn_unfold, if_pos (by simp only [ENTRY_HEADER_SIZE]; omega), hE4]
    simp only [entry_mk_status, entry_mk_dataType, entry_mk_keyHash, entry_mk_keyLength,
      entry_mk_valueLength, entry_size_mk]
    rw [if_neg (by norm_num), if_pos ⟨trivial, trivial, hK4⟩]
    rw [matchesIn_unfold, if_neg (lt_irrefl _)]
  have hdr4 : readBlockHeader (writeBlockHeader (appendEntry d1 p bh.currentOffset key ty val) p p.activeBlockIndex ⟨bh.status, bh.currentOffset + (ENTRY_HEADER_SIZE + keyLen8 key + val.length)⟩) p p.activeBlockIndex =
      some ⟨bh.status, bh.currentOffset + (ENTRY_HEADER_SIZE + keyLen8 key + val.length)⟩ :=
    readBlockHeader_write (appendEntry d1 p bh.currentOffset key ty val) p p.activeBlockIndex bh.status
      (bh.currentOffset + (ENTRY_HEADER_SIZE + keyLen8 key + val.length))
      (by rw [hact]; simp only [BLOCK_STATUS_ACTIVE]; omega) (by omega)
  have hbm4 : blockMatches (writeBlockHeader (appendEntry d1 p bh.currentOffset key ty val) p p.activeBlockIndex ⟨bh.status, bh.currentOffset + (ENTRY_HEADER_SIZE + keyLen8 key + val.length)⟩) p key p.activeBlockIndex =
      [getBlockAddress p p.activeBlockIndex + bh.currentOffset] := by
    rw [blockMatches_eq hdr4 (Or.inl hact) key]
    simp only [bh_mk_currentOffset]
    rw [matchesIn_split (show bh.currentOffset ≤ bh.currentOffset + (ENTRY_HEADER_SIZE + keyLen8 key + val.length) by omega)
      BLOCK_HEADER_SIZE hcb4, hmpre, List.nil_append, hstep]
  have hother : ∀ j ∈ List.range p.totalBlocks, j ≠ p.activeBlockIndex →
      blockMatches (writeBlockHeader (appendEntry d1 p bh.currentOffset key ty val) p p.activeBlockIndex ⟨bh.status, bh.currentOffset + (ENTRY_HEADER_SIZE + keyLen8 key + val.length)⟩) p key j = [] := by
    intro j hj hne
    have hjN := List.mem_range.mp hj
    have hout : ∀ x, getBlockAddress p j ≤ x →
        x < getBlockAddress p j + p.blockSizeBytes →
        (writeBlockHeader (appendEntry d1 p bh.currentOffset key ty val) p p.activeBlockIndex ⟨bh.status, bh.currentOffset + (ENTRY_HEADER_SIZE + keyLen8 key + val.length)⟩) x = d1 x := by
      intro x h1 h2
      rcases Nat.lt_or_ge j p.activeBlockIndex with hlt | hge
      · have hd := @blockAddr_lt p j p.activeBlockIndex hlt
        rw [writeBlockHeader_outside (Or.inl (by omega))]
        exact appendEntry_outside d1 p bh.currentOffset key ty val x (Or.inl (by omega))
      · have hlt2 : p.activeBlockIndex < j := by omega
        have hd := @blockAddr_lt p p.activeBlockIndex j hlt2
        rw [writeBlockHeader_outside (Or.inr (by omega))]
        exact appendEntry_outside d1 p bh.currentOffset key ty val x (Or.inr (by omega))
    rw [(blockMatches_congr hB4 (hOK1 j hjN) hout).1]
    exact hbm1all j hj
  have hsm4 : storeMatches (writeBlockHeader (appendEntry d1 p bh.currentOffset key ty val) p p.activeBlockIndex ⟨bh.status, bh.currentOffset + (ENTRY_HEADER_SIZE + keyLen8 key + val.length)⟩) p key =
      [getBlockAddress p p.activeBlockIndex + bh.currentOffset] := by
    unfold storeMatches
    exact flatMap_single hbm4 (List.range p.totalBlocks) (List.nodup_range _)
      (List.mem_range.mpr haN) hother
  have hf4 : findEntry (writeBlockHeader (appendEntry d1 p bh.currentOffset key ty val) p p.activeBlockIndex ⟨bh.status, bh.currentOffset + (ENTRY_HEADER_SIZE + keyLen8 key + val.length)⟩) p key =
      some (getBlockAddress p p.activeBlockIndex + bh.currentOffset) := by
    rw [findEntry_eq_head hinit, hsm4]
    rfl
  have hget : getValueBytes (writeBlockHeader (appendEntry d1 p bh.currentOffset key ty val) p p.activeBlockIndex ⟨bh.status, bh.currentOffset + (ENTRY_HEADER_SIZE + keyLen8 key + val.length)⟩) p key val.length ty dflt = val := by
    unfold getValueBytes
    rw [hf4]
    show (if (readEntryHeader (writeBlockHeader (appendEntry d1 p bh.currentOffset key ty val) p p.activeBlockIndex ⟨bh.status, bh.currentOffset + (ENTRY_HEADER_SIZE + keyLen8 key + val.length)⟩) (getBlockAddress p p.activeBlockIndex + bh.currentOffset)).dataType = ty ∧
        (readEntryHeader (writeBlockHeader (appendEntry d1 p bh.currentOffset key ty val) p p.activeBlockIndex ⟨bh.status, bh.currentOffset + (ENTRY_HEADER_SIZE + keyLen8 key + val.length)⟩) (getBlockAddress p p.activeBlockIndex + bh.currentOffset)).valueLength = val.length then
        rdBytes (writeBlockHeader (appendEntry d1 p bh.currentOffset key ty val) p p.activeBlockIndex ⟨bh.status, bh.currentOffset + (ENTRY_HEADER_SIZE + keyLen8 key + val.length)⟩) (getBlockAddress p p.activeBlockIndex + bh.currentOffset + ENTRY_HEADER_SIZE +
          (readEntryHeader (writeBlockHeader (appendEntry d1 p bh.currentOffset key ty val) p p.activeBlockIndex ⟨bh.status, bh.currentOffset + (ENTRY_HEADER_SIZE + keyLen8 key + val.length)⟩) (getBlockAddress p p.activeBlockIndex + bh.currentOffset)).keyLength) val.length
      else dflt) = val
    rw [hE4]
    simp only [entry_mk_dataType, entry_mk_valueLength, entry_mk_keyLength]
    rw [if_pos ⟨trivial, trivial⟩, hV4, hmapid]
  have hgetc : getComplexValue (writeBlockHeader (appendEntry d1 p bh.currentOffset key ty val) p p.activeBlockIndex ⟨bh.status, bh.currentOffset + (ENTRY_HEADER_SIZE + keyLen8 key + val.length)⟩) p key maxLen ty = val := by
    unfold getComplexValue
    rw [hf4]
    show (if (readEntryHeader (writeBlockHeader (appendEntry d1 p bh.currentOffset key ty val) p p.activeBlockIndex ⟨bh.status, bh.currentOffset + (ENTRY_HEADER_SIZE + keyLen8 key + val.length)⟩) (getBlockAddress p p.activeBlockIndex + bh.currentOffset)).dataType = ty then
        rdBytes (writeBlockHeader (appendEntry d1 p bh.currentOffset key ty val) p p.activeBlockIndex ⟨bh.status, bh.currentOffset + (ENTRY_HEADER_SIZE + keyLen8 key + val.length)⟩) (getBlockAddress p p.activeBlockIndex + bh.currentOffset + ENTRY_HEADER_SIZE +
          (readEntryHeader (writeBlockHeader (appendEntry d1 p bh.currentOffset key ty val) p p.activeBlockIndex ⟨bh.status, bh.currentOffset + (ENTRY_HEADER_SIZE + keyLen8 key + val.length)⟩) (getBlockAddress p p.activeBlockIndex + bh.currentOffset)).keyLength)
          (min (readEntryHeader (writeBlockHeader (appendEntry d1 p bh.currentOffset key ty val) p p.activeBlockIndex ⟨bh.status, bh.currentOffset + (ENTRY_HEADER_SIZE + keyLen8 key + val.length)⟩) (getBlockAddress p p.activeBlockIndex + bh.currentOffset)).valueLength maxLen)
      else []) = val
    rw [hE4]
    simp only [entry_mk_dataType, entry_mk_valueLength, entry_mk_keyLength]
    rw [if_pos trivial, Nat.min_eq_left hml, hV4, hmapid]
  rw [hwe, hac]
  exact ⟨rfl, hget, hgetc⟩

end RoundTrip

/-- Concrete run of the put/get round-trip: on the freshly begun store, a
16-byte record for key 107 is written successfully and both getters return
exactly the stored bytes instead of the default. -/
theorem c5_witness :
    (writeEntry stA1.2.1 stA1.2.2 [107] TYPE_BYTES vK).1 = true ∧
    getValueBytes (writeEntry stA1.2.1 stA1.2.2 [107] TYPE_BYTES vK).2.1
      (writeEntry stA1.2.1 stA1.2.2 [107] TYPE_BYTES vK).2.2 [107] vK.length
      TYPE_BYTES [99] = vK ∧
    getComplexValue (writeEntry stA1.2.1 stA1.2.2 [107] TYPE_BYTES vK).2.1
      (writeEntry stA1.2.1 stA1.2.2 [107] TYPE_BYTES vK).2.2 [107] 16 TYPE_BYTES = vK :=
  @c5_put_get_roundtrip stA1.2.1 stA1.2.2 [107] TYPE_BYTES vK ⟨1, 4⟩ [99] 16
    (by decide) (by decide) (by decide) (by decide) (by decide) (by decide)
    (by decide) (by decide) (by decide) (by decide) (by decide) (Or.inl (by decide))

section GcAnalysis

attribute [local irreducible] crc8

theorem rdBytes_length (d : Dev) (a n : Nat) : (rdBytes d a n).length = n := by
  simp [rdBytes]

theorem rd16_lt (d : Dev) (a : Nat) : rd16 d a < 65536 := by
  have h1 : rd1 d a < 256 := Nat.mod_lt _ (by norm_num)
  have h2 : rd1 d (a + 1) < 256 := Nat.mod_lt _ (by norm_num)
  simp only [rd16]
  omega

theorem readBlockHeader_bounds {d : Dev} {p : Prefs} {i : Nat} {h : BlockHdr}
    (hr : readBlockHeader d p i = some h) :
    h.status < 256 ∧ h.currentOffset < 65536 := by
  unfold readBlockHeader at hr
  dsimp only at hr
  split at hr
  · have he := Option.some.inj hr
    rw [← he]
    simp only [bh_mk_status, bh_mk_currentOffset]
    exact ⟨Nat.mod_lt _ (by norm_num), rd16_lt _ _⟩
  · exact absurd hr (by simp)

theorem chainBounded_self (d : Dev) (bs off : Nat) :
    chainBounded d bs off off = true := by
  rw [chainBounded_unfold, if_neg (lt_irrefl off)]
  exact decide_eq_true rfl

theorem matchesIn_self (d : Dev) (key : List Nat) (bs off : Nat) :
    matchesIn d key bs off off = [] := by
  rw [matchesIn_unfold, if_neg (lt_irrefl off)]

theorem blockOK_of_skip {d : Dev} {p : Prefs} {i : Nat} {h : BlockHdr}
    (hr : readBlockHeader d p i = some h)
    (hst : ¬ (h.status = BLOCK_STATUS_ACTIVE ∨ h.status = BLOCK_STATUS_VALID)) :
    blockOK d p i = true := by
  unfold blockOK
  rw [hr]
  show (if h.status = BLOCK_STATUS_ACTIVE ∨ h.status = BLOCK_STATUS_VALID then
      chainBounded d (getBlockAddress p i) h.currentOffset BLOCK_HEADER_SIZE &&
        decide (h.currentOffset ≤ p.blockSizeBytes)
    else true) = true
  rw [if_neg hst]

theorem blockMatches_of_skip {d : Dev} {p : Prefs} {i : Nat} {h : BlockHdr}
    (hr : readBlockHeader d p i = some h)
    (hst : ¬ (h.status = BLOCK_STATUS_ACTIVE ∨ h.status = BLOCK_STATUS_VALID))
    (key : List Nat) : blockMatches d p key i = [] := by
  unfold blockMatches
  rw [hr]
  show (if h.status = BLOCK_STATUS_ACTIVE ∨ h.status = BLOCK_STATUS_VALID then
      matchesIn d key (getBlockAddress p i) h.currentOffset BLOCK_HEADER_SIZE
    else []) = []
  rw [if_neg hst]

theorem blockOK_of_none {d : Dev} {p : Prefs} {i : Nat}
    (hr : readBlockHeader d p i = none) : blockOK d p i = true := by
  unfold blockOK
  rw [hr]

theorem blockMatches_of_none {d : Dev} {p : Prefs} {i : Nat}
    (hr : readBlockHeader d p i = none) (key : List Nat) :
    blockMatches d p key i = [] := by
  unfold blockMatches
  rw [hr]

theorem blockOK_of_active4 {d : Dev} {p : Prefs} {i : Nat}
    (hr : readBlockHeader d p i = some ⟨BLOCK_STATUS_ACTIVE, BLOCK_HEADER_SIZE⟩)
    (hB4 : BLOCK_HEADER_SIZE ≤ p.blockSizeBytes) :
    blockOK d p i = true := by
  unfold blockOK
  rw [hr]
  show (if (⟨BLOCK_STATUS_ACTIVE, BLOCK_HEADER_SIZE⟩ : BlockHdr).status = BLOCK_STATUS_ACTIVE ∨
      (⟨BLOCK_STATUS_ACTIVE, BLOCK_HEADER_SIZE⟩ : BlockHdr).status = BLOCK_STATUS_VALID then
      chainBounded d (getBlockAddress p i)
        (⟨BLOCK_STATUS_ACTIVE, BLOCK_HEADER_SIZE⟩ : BlockHdr).currentOffset
        BLOCK_HEADER_SIZE &&
        decide ((⟨BLOCK_STATUS_ACTIVE, BLOCK_HEADER_SIZE⟩ : BlockHdr).currentOffset ≤
          p.blockSizeBytes)
    else true) = true
  simp only [bh_mk_status, bh_mk_currentOffset]
  rw [if_pos (Or.inl trivial), chainBounded_self, Bool.true_and]
  exact decide_eq_true hB4

theorem blockMatches_of_active4 {d : Dev} {p : Prefs} {i : Nat}
    (hr : readBlockHeader d p i = some ⟨BLOCK_STATUS_ACTIVE, BLOCK_HEADER_SIZE⟩)
    (key : List Nat) : blockMatches d p key i = [] := by
  unfold blockMatches
  rw [hr]
  show (if (⟨BLOCK_STATUS_ACTIVE, BLOCK_HEADER_SIZE⟩ : BlockHdr).status = BLOCK_STATUS_ACTIVE ∨
      (⟨BLOCK_STATUS_ACTIVE, BLOCK_HEADER_SIZE⟩ : BlockHdr).status = BLOCK_STATUS_VALID then
      matchesIn d key (getBlockAddress p i)
        (⟨BLOCK_STATUS_ACTIVE, BLOCK_HEADER_SIZE⟩ : BlockHdr).currentOffset BLOCK_HEADER_SIZE
    else []) = []
  simp only [bh_mk_status, bh_mk_currentOffset]
  rw [if_pos (Or.inl trivial), matchesIn_self]

theorem findFirstEmpty_spec {d : Dev} {p : Prefs} {t : Nat} :
    ∀ l : List Nat, findFirstEmpty d p l = some t →
    t ∈ l ∧ (readBlockHeader d p t = none ∨
      ∃ h, readBlockHeader d p t = some h ∧ h.status = BLOCK_STATUS_EMPTY) := by
  intro l
  induction l with
  | nil =>
    intro h
    exact absurd h (by simp [findFirstEmpty])
  | cons i rest ih =>
    intro hf
    unfold findFirstEmpty at hf
    split at hf
    · rename_i hr
      have ht : i = t := Option.some.inj hf
      subst ht
      exact ⟨List.mem_cons_self _ _, Or.inl hr⟩
    · rename_i h hr
      split at hf
      · rename_i hst
        have ht : i = t := Option.some.inj hf
        subst ht
        exact ⟨List.mem_cons_self _ _, Or.inr ⟨h, hr, hst⟩⟩
      · obtain ⟨hmem, hrest⟩ := ih hf
        exact ⟨List.mem_cons_of_mem _ hmem, hrest⟩

theorem blockMatches_live_header {d : Dev} {p : Prefs} {key : List Nat} {i a : Nat}
    (ha : a ∈ blockMatches d p key i) :
    ∃ h, readBlockHeader d p i = some h ∧
      (h.status = BLOCK_STATUS_ACTIVE ∨ h.status = BLOCK_STATUS_VALID) := by
  unfold blockMatches at ha
  split at ha
  · rename_i h hr
    split at ha
    · rename_i hst
      exact ⟨h, hr, hst⟩
    · simp at ha
  · simp at ha

theorem appendAndCommit_fst (d : Dev) (p : Prefs) (bh : BlockHdr) (key : List Nat)
    (ty : Nat) (val : List Nat) : (appendAndCommit d p bh key ty val).1 = true := rfl

theorem getValueBytes_none {d : Dev} {p : Prefs} {key : List Nat} {n ty : Nat}
    {dflt : List Nat} (h : findEntry d p key = none) :
    getValueBytes d p key n ty dflt = dflt := by
  unfold getValueBytes
  rw [h]

theorem gcCopyEntriesF_confine (p : Prefs) (newAddr srcAddr srcOff : Nat) :
    ∀ (fuel : Nat) (d : Dev) (cursor cur : Nat),
    BLOCK_HEADER_SIZE ≤ cursor → cursor ≤ p.blockSizeBytes →
    (∀ x, x < newAddr + BLOCK_HEADER_SIZE ∨ newAddr + p.blockSizeBytes ≤ x →
      (gcCopyEntriesF p newAddr srcAddr srcOff fuel d cursor cur).2.1 x = d x) ∧
    cursor ≤ (gcCopyEntriesF p newAddr srcAddr srcOff fuel d cursor cur).2.2 ∧
    (gcCopyEntriesF p newAddr srcAddr srcOff fuel d cursor cur).2.2 ≤
      p.blockSizeBytes := by
  intro fuel
  induction fuel with
  | zero =>
    intro d cursor cur h4 hB
    exact ⟨fun x hx => rfl, le_rfl, hB⟩
  | succ m ih =>
    intro d cursor cur h4 hB
    simp only [gcCopyEntriesF]
    by_cases hcur : cur < srcOff
    · rw [if_pos hcur]
      by_cases hlive : (readEntryHeader d (srcAddr + cur)).status = 1 ∧
          (readEntryHeader d (srcAddr + cur)).keyLength ≤ p.maxKeyLength ∧
          (readEntryHeader d (srcAddr + cur)).valueLength ≤ p.maxValueLength
      · rw [if_pos hlive]
        by_cases hfit : p.blockSizeBytes <
            cursor + entrySize (readEntryHeader d (srcAddr + cur))
        · rw [if_pos hfit]
          exact ⟨fun x hx => rfl, le_rfl, hB⟩
        · rw [if_neg hfit]
          have hsz := entrySize_ge (readEntryHeader d (srcAddr + cur))
          have h4b : BLOCK_HEADER_SIZE ≤
              cursor + entrySize (readEntryHeader d (srcAddr + cur)) := by omega
          have hBb : cursor + entrySize (readEntryHeader d (srcAddr + cur)) ≤
              p.blockSizeBytes := by omega
          obtain ⟨hf, hc1, hc2⟩ := ih
            (wrBytes d (newAddr + cursor)
              (rdBytes d (srcAddr + cur) (entrySize (readEntryHeader d (srcAddr + cur)))))
            (cursor + entrySize (readEntryHeader d (srcAddr + cur)))
            (cur + entrySize (readEntryHeader d (srcAddr + cur))) h4b hBb
          refine ⟨?_, by omega, hc2⟩
          intro x hx
          rw [hf x hx]
          refine wrBytes_outside ?_
          rw [rdBytes_length]
          simp only [BLOCK_HEADER_SIZE] at hx h4
          omega
      · rw [if_neg hlive]
        exact ih d cursor (cur + entrySize (readEntryHeader d (srcAddr + cur))) h4 hB
    · rw [if_neg hcur]
      exact ⟨fun x hx => rfl, le_rfl, hB⟩

theorem gcCopyBlocks_cons_t {d : Dev} {p : Prefs} {t na cursor j : Nat}
    {rest : List Nat} (hjt : j = t) :
    gcCopyBlocks d p t na cursor (j :: rest) = gcCopyBlocks d p t na cursor rest := by
  conv_lhs => rw [gcCopyBlocks]
  rw [if_pos hjt]

theorem gcCopyBlocks_cons_none {d : Dev} {p : Prefs} {t na cursor j : Nat}
    {rest : List Nat} (hjt : ¬ j = t) (hr : readBlockHeader d p j = none) :
    gcCopyBlocks d p t na cursor (j :: rest) = gcCopyBlocks d p t na cursor rest := by
  conv_lhs => rw [gcCopyBlocks]
  rw [if_neg hjt, hr]

theorem gcCopyBlocks_cons_skip {d : Dev} {p : Prefs} {t na cursor j : Nat}
    {rest : List Nat} {h : BlockHdr} (hjt : ¬ j = t)
    (hr : readBlockHeader d p j = some h)
    (hst : ¬ (h.status = BLOCK_STATUS_ACTIVE ∨ h.status = BLOCK_STATUS_VALID)) :
    gcCopyBlocks d p t na cursor (j :: rest) = gcCopyBlocks d p t na cursor rest := by
  conv_lhs => rw [gcCopyBlocks]
  rw [if_neg hjt, hr]
  show (if h.status = BLOCK_STATUS_ACTIVE ∨ h.status = BLOCK_STATUS_VALID then
      match gcCopyEntries d p na (getBlockAddress p j) h.currentOffset cursor
          BLOCK_HEADER_SIZE with
      | (false, d1, c1) => (false, d1, c1)
      | (true, d1, c1) =>
        gcCopyBlocks (writeBlockHeader d1 p j ⟨BLOCK_STATUS_EMPTY, BLOCK_HEADER_SIZE⟩)
          p t na c1 rest
    else gcCopyBlocks d p t na cursor rest) = gcCopyBlocks d p t na cursor rest
  rw [if_neg hst]

theorem gcCopyBlocks_cons_live {d : Dev} {p : Prefs} {t na cursor j : Nat}
    {rest : List Nat} {h : BlockHdr} (hjt : ¬ j = t)
    (hr : readBlockHeader d p j = some h)
    (hst : h.status = BLOCK_STATUS_ACTIVE ∨ h.status = BLOCK_STATUS_VALID) :
    gcCopyBlocks d p t na cursor (j :: rest) =
      match gcCopyEntries d p na (getBlockAddress p j) h.currentOffset cursor
          BLOCK_HEADER_SIZE with
      | (false, d1, c1) => (false, d1, c1)
      | (true, d1, c1) =>
        gcCopyBlocks (writeBlockHeader d1 p j ⟨BLOCK_STATUS_EMPTY, BLOCK_HEADER_SIZE⟩)
          p t na c1 rest := by
  conv_lhs => rw [gcCopyBlocks]
  rw [if_neg hjt, hr]
  show (if h.status = BLOCK_STATUS_ACTIVE ∨ h.status = BLOCK_STATUS_VALID then
      match gcCopyEntries d p na (getBlockAddress p j) h.currentOffset cursor
          BLOCK_HEADER_SIZE with
      | (false, d1, c1) => (false, d1, c1)
      | (true, d1, c1) =>
        gcCopyBlocks (writeBlockHeader d1 p j ⟨BLOCK_STATUS_EMPTY, BLOCK_HEADER_SIZE⟩)
          p t na c1 rest
    else gcCopyBlocks d p t na cursor rest) = _
  rw [if_pos hst]

theorem gcCopyBlocks_inv {p : Prefs} {key : List Nat} {t : Nat}
    (hB4 : 4 ≤ p.blockSizeBytes) (htN : t < p.totalBlocks) :
    ∀ (l : List Nat) (d : Dev) (cursor : Nat),
    (∀ j ∈ l, j < p.totalBlocks) →
    BLOCK_HEADER_SIZE ≤ cursor → cursor ≤ p.blockSizeBytes →
    readBlockHeader d p t = some ⟨BLOCK_STATUS_ACTIVE, BLOCK_HEADER_SIZE⟩ →
    (∀ j < p.totalBlocks, blockOK d p j = true ∧ blockMatches d p key j = []) →
    readBlockHeader
        (gcCopyBlocks d p t (getBlockAddress p t) cursor l).2.1 p t =
      some ⟨BLOCK_STATUS_ACTIVE, BLOCK_HEADER_SIZE⟩ ∧
    BLOCK_HEADER_SIZE ≤ (gcCopyBlocks d p t (getBlockAddress p t) cursor l).2.2 ∧
    (gcCopyBlocks d p t (getBlockAddress p t) cursor l).2.2 ≤ p.blockSizeBytes ∧
    (∀ j' < p.totalBlocks,
      blockOK (gcCopyBlocks d p t (getBlockAddress p t) cursor l).2.1 p j' = true ∧
      blockMatches (gcCopyBlocks d p t (getBlockAddress p t) cursor l).2.1 p key j' = []) ∧
    (∀ x, (∀ j' < p.totalBlocks,
        ¬ (getBlockAddress p j' ≤ x ∧ x < getBlockAddress p j' + BLOCK_HEADER_SIZE)) →
      ¬ (getBlockAddress p t ≤ x ∧ x < getBlockAddress p t + p.blockSizeBytes) →
      (gcCopyBlocks d p t (getBlockAddress p t) cursor l).2.1 x = d x) := by
  intro l
  induction l with
  | nil =>
    intro d cursor hmem h4 hB hrt hall
    exact ⟨hrt, h4, hB, hall, fun x hx1 hx2 => rfl⟩
  | cons j rest ih =>
    intro d cursor hmem h4 hB hrt hall
    have hjN : j < p.totalBlocks := hmem j (List.mem_cons_self _ _)
    have hmem' : ∀ j' ∈ rest, j' < p.totalBlocks :=
      fun j' hj' => hmem j' (List.mem_cons_of_mem _ hj')
    by_cases hjt : j = t
    · rw [gcCopyBlocks_cons_t hjt]
      exact ih d cursor hmem' h4 hB hrt hall
    · cases hrj : readBlockHeader d p j with
      | none =>
        rw [gcCopyBlocks_cons_none hjt hrj]
        exact ih d cursor hmem' h4 hB hrt hall
      | some h =>
        by_cases hst : h.status = BLOCK_STATUS_ACTIVE ∨ h.status = BLOCK_STATUS_VALID
        · rw [gcCopyBlocks_cons_live hjt hrj hst]
          rcases hgc : gcCopyEntries d p (getBlockAddress p t) (getBlockAddress p j)
              h.currentOffset cursor BLOCK_HEADER_SIZE with ⟨b1, dd, c1⟩
          unfold gcCopyEntries at hgc
          have hconf := gcCopyEntriesF_confine p (getBlockAddress p t)
            (getBlockAddress p j) h.currentOffset
            (h.currentOffset - BLOCK_HEADER_SIZE) d cursor BLOCK_HEADER_SIZE h4 hB
          rw [hgc] at hconf
          dsimp only at hconf
          obtain ⟨hfr, hc1a, hc1b⟩ := hconf
          have hrt2 : readBlockHeader dd p t =
              some ⟨BLOCK_STATUS_ACTIVE, BLOCK_HEADER_SIZE⟩ := by
            rw [readBlockHeader_congr
              (fun k hk => hfr _ (Or.inl (by simp only [BLOCK_HEADER_SIZE]; omega)))]
            exact hrt
          have hall2 : ∀ j' < p.totalBlocks, blockOK dd p j' = true ∧
              blockMatches dd p key j' = [] := by
            intro j' hj'
            by_cases hj't : j' = t
            · subst hj't
              exact ⟨blockOK_of_active4 hrt2 (by simp only [BLOCK_HEADER_SIZE]; omega),
                blockMatches_of_active4 hrt2 key⟩
            · have hag : ∀ x, getBlockAddress p j' ≤ x →
                  x < getBlockAddress p j' + p.blockSizeBytes → dd x = d x := by
                intro x h1 h2
                refine hfr x ?_
                rcases Nat.lt_trichotomy j' t with hlt | heq | hgt
                · have hd := @blockAddr_lt p j' t hlt
                  left
                  simp only [BLOCK_HEADER_SIZE]
                  omega
                · exact absurd heq hj't
                · have hd := @blockAddr_lt p t j' hgt
                  right
                  omega
              obtain ⟨hm, hOK2⟩ := blockMatches_congr hB4 (hall j' hj').1 hag
              exact ⟨hOK2, by rw [hm]; exact (hall j' hj').2⟩
          cases b1 with
          | false =>
            show readBlockHeader dd p t = some ⟨BLOCK_STATUS_ACTIVE, BLOCK_HEADER_SIZE⟩ ∧
              BLOCK_HEADER_SIZE ≤ c1 ∧ c1 ≤ p.blockSizeBytes ∧
              (∀ j' < p.totalBlocks, blockOK dd p j' = true ∧
                blockMatches dd p key j' = []) ∧
              (∀ x, (∀ j' < p.totalBlocks,
                  ¬ (getBlockAddress p j' ≤ x ∧
                    x < getBlockAddress p j' + BLOCK_HEADER_SIZE)) →
                ¬ (getBlockAddress p t ≤ x ∧
                  x < getBlockAddress p t + p.blockSizeBytes) →
                dd x = d x)
            refine ⟨hrt2, by omega, hc1b, hall2, ?_⟩
            intro x hx1 hx2
            exact hfr x (by simp only [BLOCK_HEADER_SIZE]; omega)
          | true =>
            have hjhdr : readBlockHeader (writeBlockHeader dd p j ⟨BLOCK_STATUS_EMPTY, BLOCK_HEADER_SIZE⟩) p j =
                some ⟨BLOCK_STATUS_EMPTY, BLOCK_HEADER_SIZE⟩ :=
              readBlockHeader_write dd p j BLOCK_STATUS_EMPTY BLOCK_HEADER_SIZE
                (by simp only [BLOCK_STATUS_EMPTY]; omega)
                (by simp only [BLOCK_HEADER_SIZE]; omega)
            have hjskip : ¬ ((⟨BLOCK_STATUS_EMPTY, BLOCK_HEADER_SIZE⟩ : BlockHdr).status =
                BLOCK_STATUS_ACTIVE ∨
                (⟨BLOCK_STATUS_EMPTY, BLOCK_HEADER_SIZE⟩ : BlockHdr).status =
                BLOCK_STATUS_VALID) := by
              simp only [bh_mk_status, BLOCK_STATUS_EMPTY, BLOCK_STATUS_ACTIVE,
                BLOCK_STATUS_VALID]
              omega
            have hrtE : readBlockHeader (writeBlockHeader dd p j ⟨BLOCK_STATUS_EMPTY, BLOCK_HEADER_SIZE⟩) p t =
                some ⟨BLOCK_STATUS_ACTIVE, BLOCK_HEADER_SIZE⟩ := by
              rw [readBlockHeader_congr (fun k hk => ?_)]
              · exact hrt2
              · refine writeBlockHeader_outside ?_
                rcases Nat.lt_trichotomy j t with hlt | heq | hgt
                · have hd := @blockAddr_lt p j t hlt
                  right
                  omega
                · exact absurd heq hjt
                · have hd := @blockAddr_lt p t j hgt
                  left
                  simp only [BLOCK_HEADER_SIZE] at hd ⊢
                  omega
            have hallE : ∀ j' < p.totalBlocks, blockOK (writeBlockHeader dd p j ⟨BLOCK_STATUS_EMPTY, BLOCK_HEADER_SIZE⟩) p j' = true ∧
                blockMatches (writeBlockHeader dd p j ⟨BLOCK_STATUS_EMPTY, BLOCK_HEADER_SIZE⟩) p key j' = [] := by
              intro j' hj'
              by_cases hj'j : j' = j
              · subst hj'j
                exact ⟨blockOK_of_skip hjhdr hjskip, blockMatches_of_skip hjhdr hjskip key⟩
              · have hag : ∀ x, getBlockAddress p j' ≤ x →
                    x < getBlockAddress p j' + p.blockSizeBytes →
                    (writeBlockHeader dd p j ⟨BLOCK_STATUS_EMPTY, BLOCK_HEADER_SIZE⟩) x = dd x := by
                  intro x h1 h2
                  refine writeBlockHeader_outside ?_
                  rcases Nat.lt_trichotomy j' j with hlt | heq | hgt
                  · have hd := @blockAddr_lt p j' j hlt
                    left
                    omega
                  · exact absurd heq hj'j
                  · have hd := @blockAddr_lt p j j' hgt
                    right
                    simp only [BLOCK_HEADER_SIZE] at hd ⊢
                    omega
                obtain ⟨hm, hOK2⟩ := blockMatches_congr hB4 (hall2 j' hj').1 hag
                exact ⟨hOK2, by rw [hm]; exact (hall2 j' hj').2⟩
            show readBlockHeader
                (gcCopyBlocks (writeBlockHeader dd p j ⟨BLOCK_STATUS_EMPTY, BLOCK_HEADER_SIZE⟩) p t (getBlockAddress p t) c1 rest).2.1 p t =
                some ⟨BLOCK_STATUS_ACTIVE, BLOCK_HEADER_SIZE⟩ ∧
              BLOCK_HEADER_SIZE ≤
                (gcCopyBlocks (writeBlockHeader dd p j ⟨BLOCK_STATUS_EMPTY, BLOCK_HEADER_SIZE⟩) p t (getBlockAddress p t) c1 rest).2.2 ∧
              (gcCopyBlocks (writeBlockHeader dd p j ⟨BLOCK_STATUS_EMPTY, BLOCK_HEADER_SIZE⟩) p t (getBlockAddress p t) c1 rest).2.2 ≤
                p.blockSizeBytes ∧
              (∀ j' < p.totalBlocks,
                blockOK (gcCopyBlocks (writeBlockHeader dd p j ⟨BLOCK_STATUS_EMPTY, BLOCK_HEADER_SIZE⟩) p t (getBlockAddress p t) c1 rest).2.1
                  p j' = true ∧
                blockMatches (gcCopyBlocks (writeBlockHeader dd p j ⟨BLOCK_STATUS_EMPTY, BLOCK_HEADER_SIZE⟩) p t (getBlockAddress p t) c1 rest).2.1
                  p key j' = []) ∧
              (∀ x, (∀ j' < p.totalBlocks,
                  ¬ (getBlockAddress p j' ≤ x ∧
                    x < getBlockAddress p j' + BLOCK_HEADER_SIZE)) →
                ¬ (getBlockAddress p t ≤ x ∧
                  x < getBlockAddress p t + p.blockSizeBytes) →
                (gcCopyBlocks (writeBlockHeader dd p j ⟨BLOCK_STATUS_EMPTY, BLOCK_HEADER_SIZE⟩) p t (getBlockAddress p t) c1 rest).2.1 x = d x)
            obtain ⟨i1, i2, i3, i4, i5⟩ := ih (writeBlockHeader dd p j ⟨BLOCK_STATUS_EMPTY, BLOCK_HEADER_SIZE⟩) c1 hmem' (by omega) hc1b hrtE hallE
            refine ⟨i1, i2, i3, i4, ?_⟩
            intro x hx1 hx2
            rw [i5 x hx1 hx2]
            have hxj := hx1 j hjN
            rw [writeBlockHeader_outside
              (by simp only [BLOCK_HEADER_SIZE] at hxj; omega)]
            exact hfr x (by simp only [BLOCK_HEADER_SIZE]; omega)
        · rw [gcCopyBlocks_cons_skip hjt hrj hst]
          exact ih d cursor hmem' h4 hB hrt hall

theorem blockOK_intro {d : Dev} {p : Prefs} {i : Nat} {h : BlockHdr}
    (hr : readBlockHeader d p i = some h)
    (hcb : chainBounded d (getBlockAddress p i) h.currentOffset BLOCK_HEADER_SIZE = true)
    (hoff : h.currentOffset ≤ p.blockSizeBytes) :
    blockOK d p i = true := by
  unfold blockOK
  rw [hr]
  show (if h.status = BLOCK_STATUS_ACTIVE ∨ h.status = BLOCK_STATUS_VALID then
      chainBounded d (getBlockAddress p i) h.currentOffset BLOCK_HEADER_SIZE &&
        decide (h.currentOffset ≤ p.blockSizeBytes)
    else true) = true
  by_cases hst : h.status = BLOCK_STATUS_ACTIVE ∨ h.status = BLOCK_STATUS_VALID
  · rw [if_pos hst, hcb, Bool.true_and]
    exact decide_eq_true hoff
  · rw [if_neg hst]

theorem gc_cases {d : Dev} {p : Prefs} {key : List Nat} {bhA : BlockHdr}
    (hg : GeomOK p) (hOK : BlocksOK d p) (hsm : storeMatches d p key = [])
    (hinit : p.isInitialized = true)
    (hbhA : readBlockHeader d p p.activeBlockIndex = some bhA)
    (hactA : bhA.status = BLOCK_STATUS_ACTIVE) :
    ∀ b d2 p2, runGarbageCollection d p = (b, d2, p2) →
    (b = false → p2 = p ∧ storeMatches d2 p key = [] ∧
      (∀ x k, k < p.totalBlocks →
        (∀ j < p.totalBlocks, ¬ (getBlockAddress p j ≤ x ∧
          x < getBlockAddress p j + BLOCK_HEADER_SIZE)) →
        getBlockAddress p k ≤ x → x < getBlockAddress p k + p.blockSizeBytes →
        (∃ hk, readBlockHeader d p k = some hk ∧
          (hk.status = BLOCK_STATUS_ACTIVE ∨ hk.status = BLOCK_STATUS_VALID)) →
        d2 x = d x)) ∧
    (b = true → ∃ c, c < 65536 ∧
      readBlockHeader d2 p2 p2.activeBlockIndex = some ⟨BLOCK_STATUS_ACTIVE, c⟩) := by
  have hB4 : 4 ≤ p.blockSizeBytes := hg.1
  have hB65 : p.blockSizeBytes < 65536 := hg.2.1
  have haN : p.activeBlockIndex < p.totalBlocks := hg.2.2.2.1
  have hbndA := readBlockHeader_bounds hbhA
  obtain ⟨hcbA, hoffA⟩ := blockOK_elim (hOK p.activeBlockIndex haN) hbhA (Or.inl hactA)
  have hbmall := flatMap_eq_nil (List.range p.totalBlocks)
    (by have h := hsm; unfold storeMatches at h; exact h)
  have hmAnil : matchesIn d key (getBlockAddress p p.activeBlockIndex)
      bhA.currentOffset BLOCK_HEADER_SIZE = [] := by
    have h := hbmall p.activeBlockIndex (List.mem_range.mpr haN)
    rw [blockMatches_eq hbhA (Or.inl hactA) key] at h
    exact h
  intro b d2 p2 hr
  unfold runGarbageCollection at hr
  cases hffe : findFirstEmpty d p (List.range p.totalBlocks) with
  | none =>
    rw [hffe] at hr
    dsimp only at hr
    simp only [Prod.mk.injEq] at hr
    obtain ⟨hb, hd2, hp2⟩ := hr
    subst hb
    subst hd2
    subst hp2
    refine ⟨fun _ => ⟨rfl, hsm, fun x k hk hxh hx1 hx2 hlive => rfl⟩,
      fun hb => Bool.noConfusion hb⟩
  | some t =>
    obtain ⟨htmem, htprop⟩ := findFirstEmpty_spec _ hffe
    have htN : t < p.totalBlocks := List.mem_range.mp htmem
    have htA : t ≠ p.activeBlockIndex := by
      intro he
      rcases htprop with hn | ⟨h', hs', he'⟩
      · rw [he] at hn
        rw [hbhA] at hn
        exact Option.noConfusion hn
      · rw [he] at hs'
        rw [hbhA] at hs'
        have heq := Option.some.inj hs'
        rw [← heq] at he'
        rw [hactA] at he'
        simp only [BLOCK_STATUS_EMPTY, BLOCK_STATUS_ACTIVE] at he'
        omega
    rw [hffe] at hr
    dsimp only at hr
    rw [if_pos hinit, hbhA] at hr
    dsimp only at hr
    -- facts about the promoted device
    have hrt2 : readBlockHeader (writeBlockHeader (writeBlockHeader d p p.activeBlockIndex ⟨BLOCK_STATUS_VALID, bhA.currentOffset⟩) p t ⟨BLOCK_STATUS_ACTIVE, BLOCK_HEADER_SIZE⟩) p t =
        some ⟨BLOCK_STATUS_ACTIVE, BLOCK_HEADER_SIZE⟩ :=
      readBlockHeader_write _ p t BLOCK_STATUS_ACTIVE BLOCK_HEADER_SIZE
        (by simp only [BLOCK_STATUS_ACTIVE]; omega)
        (by simp only [BLOCK_HEADER_SIZE]; omega)
    have hrdA1 : readBlockHeader (writeBlockHeader d p p.activeBlockIndex ⟨BLOCK_STATUS_VALID, bhA.currentOffset⟩) p p.activeBlockIndex =
        some ⟨BLOCK_STATUS_VALID, bhA.currentOffset⟩ :=
      readBlockHeader_write d p p.activeBlockIndex BLOCK_STATUS_VALID bhA.currentOffset
        (by simp only [BLOCK_STATUS_VALID]; omega) hbndA.2
    have hrdA2 : readBlockHeader (writeBlockHeader (writeBlockHeader d p p.activeBlockIndex ⟨BLOCK_STATUS_VALID, bhA.currentOffset⟩) p t ⟨BLOCK_STATUS_ACTIVE, BLOCK_HEADER_SIZE⟩) p p.activeBlockIndex =
        some ⟨BLOCK_STATUS_VALID, bhA.currentOffset⟩ := by
      rw [readBlockHeader_congr (fun k hk => ?_)]
      · exact hrdA1
      · refine writeBlockHeader_outside ?_
        rcases Nat.lt_trichotomy t p.activeBlockIndex with hlt | heq | hgt
        · have hd := @blockAddr_lt p t p.activeBlockIndex hlt
          right
          omega
        · exact absurd heq htA
        · have hd := @blockAddr_lt p p.activeBlockIndex t hgt
          left
          simp only [BLOCK_HEADER_SIZE] at hd ⊢
          omega
    have hagA : ∀ x, getBlockAddress p p.activeBlockIndex + BLOCK_HEADER_SIZE ≤ x →
        x < getBlockAddress p p.activeBlockIndex + bhA.currentOffset →
        (writeBlockHeader (writeBlockHeader d p p.activeBlockIndex ⟨BLOCK_STATUS_VALID, bhA.currentOffset⟩) p t ⟨BLOCK_STATUS_ACTIVE, BLOCK_HEADER_SIZE⟩) x = d x := by
      intro x h1 h2
      simp only [BLOCK_HEADER_SIZE] at h1
      have hstep1 : (writeBlockHeader (writeBlockHeader d p p.activeBlockIndex ⟨BLOCK_STATUS_VALID, bhA.currentOffset⟩) p t ⟨BLOCK_STATUS_ACTIVE, BLOCK_HEADER_SIZE⟩) x = (writeBlockHeader d p p.activeBlockIndex ⟨BLOCK_STATUS_VALID, bhA.currentOffset⟩) x := by
        refine writeBlockHeader_outside ?_
        rcases Nat.lt_trichotomy t p.activeBlockIndex with hlt | heq | hgt
        · have hd := @blockAddr_lt p t p.activeBlockIndex hlt
          right
          omega
        · exact absurd heq htA
        · have hd := @blockAddr_lt p p.activeBlockIndex t hgt
          left
          omega
      rw [hstep1]
      exact writeBlockHeader_outside (Or.inr (by omega))
    obtain ⟨hmA2, hcbA2⟩ := matchesIn_congr BLOCK_HEADER_SIZE hcbA hagA
    have hall2 : ∀ j < p.totalBlocks, blockOK (writeBlockHeader (writeBlockHeader d p p.activeBlockIndex ⟨BLOCK_STATUS_VALID, bhA.currentOffset⟩) p t ⟨BLOCK_STATUS_ACTIVE, BLOCK_HEADER_SIZE⟩) p j = true ∧
        blockMatches (writeBlockHeader (writeBlockHeader d p p.activeBlockIndex ⟨BLOCK_STATUS_VALID, bhA.currentOffset⟩) p t ⟨BLOCK_STATUS_ACTIVE, BLOCK_HEADER_SIZE⟩) p key j = [] := by
      intro j hj
      by_cases hjt : j = t
      · subst hjt
        exact ⟨blockOK_of_active4 hrt2 (by simp only [BLOCK_HEADER_SIZE]; omega),
          blockMatches_of_active4 hrt2 key⟩
      · by_cases hjA : j = p.activeBlockIndex
        · subst hjA
          constructor
          · refine blockOK_intro hrdA2 ?_ ?_
            · simp only [bh_mk_currentOffset]
              exact hcbA2
            · simp only [bh_mk_currentOffset]
              exact hoffA
          · rw [blockMatches_eq hrdA2 (Or.inr (by simp only [bh_mk_status])) key]
            simp only [bh_mk_currentOffset]
            rw [hmA2]
            exact hmAnil
        · have hag : ∀ x, getBlockAddress p j ≤ x →
              x < getBlockAddress p j + p.blockSizeBytes → (writeBlockHeader (writeBlockHeader d p p.activeBlockIndex ⟨BLOCK_STATUS_VALID, bhA.currentOffset⟩) p t ⟨BLOCK_STATUS_ACTIVE, BLOCK_HEADER_SIZE⟩) x = d x := by
            intro x h1 h2
            have hstep1 : (writeBlockHeader (writeBlockHeader d p p.activeBlockIndex ⟨BLOCK_STATUS_VALID, bhA.currentOffset⟩) p t ⟨BLOCK_STATUS_ACTIVE, BLOCK_HEADER_SIZE⟩) x = (writeBlockHeader d p p.activeBlockIndex ⟨BLOCK_STATUS_VALID, bhA.currentOffset⟩) x := by
              refine writeBlockHeader_outside ?_
              rcases Nat.lt_trichotomy t j with hlt | heq | hgt
              · have hd := @blockAddr_lt p t j hlt
                right
                omega
              · exact absurd heq.symm hjt
              · have hd := @blockAddr_lt p j t hgt
                left
                omega
            rw [hstep1]
            refine writeBlockHeader_outside ?_
            rcases Nat.lt_trichotomy p.activeBlockIndex j with hlt | heq | hgt
            · have hd := @blockAddr_lt p p.activeBlockIndex j hlt
              right
              omega
            · exact absurd heq.symm hjA
            · have hd := @blockAddr_lt p j p.activeBlockIndex hgt
              left
              omega
          obtain ⟨hm, hOK2⟩ := blockMatches_congr hB4 (hOK j hj) hag
          exact ⟨hOK2, by rw [hm]; exact hbmall j (List.mem_range.mpr hj)⟩
    have hframe2 : ∀ x, (∀ j < p.totalBlocks,
        ¬ (getBlockAddress p j ≤ x ∧ x < getBlockAddress p j + BLOCK_HEADER_SIZE)) →
        (writeBlockHeader (writeBlockHeader d p p.activeBlockIndex ⟨BLOCK_STATUS_VALID, bhA.currentOffset⟩) p t ⟨BLOCK_STATUS_ACTIVE, BLOCK_HEADER_SIZE⟩) x = d x := by
      intro x hxh
      have hxt := hxh t htN
      have hxA := hxh p.activeBlockIndex haN
      simp only [BLOCK_HEADER_SIZE] at hxt hxA
      have hstep1 : (writeBlockHeader (writeBlockHeader d p p.activeBlockIndex ⟨BLOCK_STATUS_VALID, bhA.currentOffset⟩) p t ⟨BLOCK_STATUS_ACTIVE, BLOCK_HEADER_SIZE⟩) x = (writeBlockHeader d p p.activeBlockIndex ⟨BLOCK_STATUS_VALID, bhA.currentOffset⟩) x :=
        writeBlockHeader_outside (by omega)
      rw [hstep1]
      exact writeBlockHeader_outside (by omega)
    obtain ⟨i1, i2, i3, i4, i5⟩ := gcCopyBlocks_inv hB4 htN (List.range p.totalBlocks)
      (writeBlockHeader (writeBlockHeader d p p.activeBlockIndex ⟨BLOCK_STATUS_VALID, bhA.currentOffset⟩) p t ⟨BLOCK_STATUS_ACTIVE, BLOCK_HEADER_SIZE⟩) BLOCK_HEADER_SIZE (fun j hj => List.mem_range.mp hj) le_rfl
      (by simp only [BLOCK_HEADER_SIZE]; omega) hrt2 hall2
    rcases hres : gcCopyBlocks (writeBlockHeader (writeBlockHeader d p p.activeBlockIndex ⟨BLOCK_STATUS_VALID, bhA.currentOffset⟩) p t ⟨BLOCK_STATUS_ACTIVE, BLOCK_HEADER_SIZE⟩) p t (getBlockAddress p t) BLOCK_HEADER_SIZE
        (List.range p.totalBlocks) with ⟨br, dr, cr⟩
    rw [hres] at i1 i2 i3 i4 i5 hr
    dsimp only at i1 i2 i3 i4 i5
    cases br with
    | false =>
      have hfin : gcFinish p t ((false, dr, cr) : Bool × Dev × Nat) = (false, dr, p) := rfl
      rw [hfin] at hr
      simp only [Prod.mk.injEq] at hr
      obtain ⟨hb, hd2, hp2⟩ := hr
      subst hb
      subst hd2
      subst hp2
      refine ⟨fun _ => ⟨rfl, ?_, ?_⟩, fun hb => Bool.noConfusion hb⟩
      · unfold storeMatches
        exact flatMap_nil_of (List.range p.totalBlocks)
          (fun j hj => (i4 j (List.mem_range.mp hj)).2)
      · intro x k hk hxh hx1 hx2 hlive
        obtain ⟨hk', hrk, hstk⟩ := hlive
        have hkt : k ≠ t := by
          intro he
          rcases htprop with hn | ⟨h', hs', he'⟩
          · rw [← he] at hn
            rw [hrk] at hn
            exact Option.noConfusion hn
          · rw [← he] at hs'
            rw [hrk] at hs'
            have heq := Option.some.inj hs'
            rw [heq] at hstk
            rw [he'] at hstk
            simp only [BLOCK_STATUS_EMPTY, BLOCK_STATUS_ACTIVE,
              BLOCK_STATUS_VALID] at hstk
            omega
        have hxt : ¬ (getBlockAddress p t ≤ x ∧
            x < getBlockAddress p t + p.blockSizeBytes) := by
          rcases Nat.lt_trichotomy k t with hlt | heq | hgt
          · have hd := @blockAddr_lt p k t hlt
            omega
          · exact absurd heq hkt
          · have hd := @blockAddr_lt p t k hgt
            omega
        rw [i5 x hxh hxt]
        exact hframe2 x hxh
    | true =>
      have hfin : gcFinish p t ((true, dr, cr) : Bool × Dev × Nat) =
          (true, writeGlobalHeader
            (writeBlockHeader dr p t ⟨BLOCK_STATUS_ACTIVE, cr⟩)
            ⟨165, 1, p.totalBlocks, t⟩,
           { p with activeBlockIndex := t }) := rfl
      rw [hfin] at hr
      simp only [Prod.mk.injEq] at hr
      obtain ⟨hb, hd2, hp2⟩ := hr
      subst hb
      subst hd2
      subst hp2
      refine ⟨fun hb => Bool.noConfusion hb, fun _ => ⟨cr, by omega, ?_⟩⟩
      show readBlockHeader (writeGlobalHeader
          (writeBlockHeader dr p t ⟨BLOCK_STATUS_ACTIVE, cr⟩)
          ⟨165, 1, p.totalBlocks, t⟩) p t = some ⟨BLOCK_STATUS_ACTIVE, cr⟩
      rw [readBlockHeader_congr (fun k hk => writeGlobalHeader_outside
        (by simp only [getBlockAddress, GLOBAL_HEADER_SIZE]; omega))]
      exact readBlockHeader_write dr p t BLOCK_STATUS_ACTIVE cr
        (by simp only [BLOCK_STATUS_ACTIVE]; omega) (by omega)

/-- C8: a failed put is not atomic with respect to the prior value.  On an
initialized, sane store where the key has exactly one live entry at address
`A` and the guards pass, `_writeEntry` tombstones that entry before any
failure can occur; whichever later step fails — the re-read active header is
unreadable or not ACTIVE, or the garbage collection runs out of space — the
operation returns false with the entry already tombstoned, the key
unresolvable, and every typed get returning the caller's default.  (When the
garbage collection succeeds, the append cannot fail, so those are the only
failing outcomes.) -/
theorem c8_failed_put_tombstones {d : Dev} {p : Prefs} {key : List Nat} {ty : Nat}
    {val : List Nat} {A : Nat} (n : Nat) (dflt : List Nat)
    (hg : GeomOK p) (hOK : BlocksOK d p) (hinit : p.isInitialized = true)
    (hk : key.length ≤ p.maxKeyLength) (hv : val.length ≤ p.maxValueLength)
    (hsm : storeMatches d p key = [A]) (h1 : rd1 d A = 1)
    {d' : Dev} {p' : Prefs}
    (hfail : writeEntry d p key ty val = (false, d', p')) :
    rd1 d' A = 0 ∧ findEntry d' p' key = none ∧
    getValueBytes d' p' key n ty dflt = dflt := by
  have hB4 : 4 ≤ p.blockSizeBytes := hg.1
  have hB65 : p.blockSizeBytes < 65536 := hg.2.1
  have hKmax : p.maxKeyLength < 256 := hg.2.2.1
  have hk8 : keyLen8 key = key.length := Nat.mod_eq_of_lt (by omega)
  have hcap : ¬ (p.maxKeyLength < keyLen8 key ∨ p.maxValueLength < val.length) := by
    rw [hk8]
    omega
  have hf : findEntry d p key = some A := by
    rw [findEntry_eq_head hinit, hsm]
    rfl
  have hApos : 0 < A := findEntry_pos hf
  obtain ⟨hsm1, hOK1, hhdr1⟩ := storeMatches_tombstone hg hOK hsm
  have hd1 : (match findEntry d p key with
      | some a => (markEntryAsDeleted d a).2
      | none => d) = wr1 d A 0 := by
    rw [hf]
    show (markEntryAsDeleted d A).2 = wr1 d A 0
    unfold markEntryAsDeleted
    rw [if_neg (by omega), if_neg (not_not_intro h1)]
  have hA0 : rd1 (wr1 d A 0) A = 0 := by
    simp only [rd1, wr1_self]
  have hfe1 : findEntry (wr1 d A 0) p key = none := by
    rw [findEntry_eq_head hinit, hsm1]
    rfl
  have hAmem : A ∈ storeMatches d p key := by
    rw [hsm]
    exact List.mem_cons_self _ _
  obtain ⟨k, hkl, hAk⟩ := List.mem_flatMap.mp hAmem
  have hkN : k < p.totalBlocks := List.mem_range.mp hkl
  have hApos2 := blockMatches_mem (hOK k hkN) hAk
  obtain ⟨hkh, hrk, hstk⟩ := blockMatches_live_header hAk
  unfold writeEntry at hfail
  rw [if_neg (by rw [hinit]; exact fun h => Bool.noConfusion h), if_neg hcap] at hfail
  rw [hd1] at hfail
  dsimp only at hfail
  split at hfail
  · -- active-block header unreadable after the tombstone
    simp only [Prod.mk.injEq] at hfail
    obtain ⟨_, hd', hp'⟩ := hfail
    subst hd'
    subst hp'
    exact ⟨hA0, hfe1, getValueBytes_none hfe1⟩
  · rename_i bh hrb
    split at hfail
    · -- active block not ACTIVE after the tombstone
      simp only [Prod.mk.injEq] at hfail
      obtain ⟨_, hd', hp'⟩ := hfail
      subst hd'
      subst hp'
      exact ⟨hA0, hfe1, getValueBytes_none hfe1⟩
    · rename_i hstB
      have hactB : bh.status = BLOCK_STATUS_ACTIVE := not_not.mp hstB
      split at hfail
      · -- the record does not fit: garbage collection runs
        rcases hgc : runGarbageCollection (wr1 d A 0) p with ⟨bg, d2, p2⟩
        rw [hgc] at hfail
        have hcase := gc_cases hg hOK1 hsm1 hinit hrb hactB bg d2 p2 hgc
        cases bg with
        | false =>
          dsimp only at hfail
          simp only [Prod.mk.injEq] at hfail
          obtain ⟨_, hd', hp'⟩ := hfail
          subst hd'
          subst hp'
          obtain ⟨hp2, hsm2, hframe⟩ := hcase.1 rfl
          rw [hp2]
          have hxh : ∀ j < p.totalBlocks, ¬ (getBlockAddress p j ≤ A ∧
              A < getBlockAddress p j + BLOCK_HEADER_SIZE) := by
            intro j hj
            rcases Nat.lt_trichotomy j k with hlt | heq | hgt
            · have hd := @blockAddr_lt p j k hlt
              simp only [BLOCK_HEADER_SIZE] at hApos2 ⊢
              omega
            · subst heq
              simp only [BLOCK_HEADER_SIZE] at hApos2 ⊢
              omega
            · have hd := @blockAddr_lt p k j hgt
              simp only [BLOCK_HEADER_SIZE] at hApos2 ⊢
              omega
          have hdA : d2 A = wr1 d A 0 A :=
            hframe A k hkN hxh
              (by simp only [BLOCK_HEADER_SIZE] at hApos2; omega) hApos2.2
              ⟨hkh, by rw [hhdr1 k]; exact hrk, hstk⟩
          have hfe2 : findEntry d2 p key = none := by
            rw [findEntry_eq_head hinit, hsm2]
            rfl
          refine ⟨?_, hfe2, getValueBytes_none hfe2⟩
          simp only [rd1]
          rw [hdA]
          simpa only [rd1] using hA0
        | true =>
          dsimp only at hfail
          obtain ⟨c, hc65, hrdc⟩ := hcase.2 rfl
          rw [hrdc] at hfail
          dsimp only at hfail
          rw [if_neg (not_not_intro rfl)] at hfail
          have hfst := appendAndCommit_fst d2 p2 ⟨BLOCK_STATUS_ACTIVE, c⟩ key ty val
          rw [hfail] at hfst
          exact Bool.noConfusion hfst
      · -- the record fits: the append succeeds, contradicting the failure
        have hfst := appendAndCommit_fst (wr1 d A 0) p bh key ty val
        rw [hfail] at hfst
        exact Bool.noConfusion hfst

end GcAnalysis

/-- Concrete failing put: on the two-thirds-full store `devC`, overwriting
key 120 tombstones its live entry, the garbage collection then runs out of
space, and the put returns false with the key gone — the getter returns the
default rather than the old bytes. -/
theorem c8_witness :
    rd1 stC.2.1 11 = 0 ∧ findEntry stC.2.1 stC.2.2 [120] = none ∧
    getValueBytes stC.2.1 stC.2.2 [120] 4 TYPE_BYTES [99] = [99] :=
  @c8_failed_put_tombstones devC cfgC [120] TYPE_BYTES [1, 2, 3, 4] 11 4 [99]
    (by decide) (by decide) (by decide) (by decide) (by decide) (by decide)
    (by decide) stC.2.1 stC.2.2 (Prod.ext (by decide) rfl)
